import Mathlib

/-!
Verification development for the `project-report-compiler` repository
(`src/dataManager.ts`, `src/projectTracker.ts`, `src/reportGenerator.ts`).

Modelling conventions:
* Timestamps are natural numbers counted in minutes; parsing an ISO date
  string with `new Date(...)` and comparing/deriving the calendar date is
  modelled by working with the number directly, with one calendar day being
  `minutesPerDay` minutes (`dateOf t = t / minutesPerDay` is the calendar
  date of timestamp `t`, corresponding to the local-time date that
  `toLocaleDateString` renders).
* The git adapter (`simple-git`) is external: `git.log` is modelled as an
  `Except Unit (List FetchedCommit)` argument (`Except.error` models the
  call throwing, which the `try/catch` in `fetchRecentCommits` turns into a
  `false` result with no mutation), and `git.diffSummary` as a function
  `String → Option (List FileChange)` from the commit hash (`none` models
  the per-commit diff call throwing, which the inner `try/catch` turns into
  an empty `files` array).
* Locale date formatting (`formatDate`, `formatDateTime`, `formatTime`) is
  environment behaviour; renderers are parameterised by a `DateFmt` record
  of formatting functions (`day` takes the calendar-day number).
-/

/-- FileChange record from `dataManager.ts` (`FileChange` interface). -/
structure FileChange where
  filename : String
  additions : Nat
  deletions : Nat
  changes : Nat
deriving DecidableEq, Repr

/-- CommitData record from `dataManager.ts` (`CommitData` interface); `date`
is the parsed commit timestamp in minutes. -/
structure CommitData where
  hash : String
  message : String
  author : String
  email : String
  date : Nat
  files : List FileChange
deriving DecidableEq, Repr

/-- ProjectData record from `dataManager.ts` (`ProjectData` interface);
`lastActivity` and `createdAt` are timestamps in minutes. -/
structure ProjectData where
  name : String
  path : String
  commits : List CommitData
  lastActivity : Nat
  createdAt : Nat
deriving DecidableEq, Repr

/-- One entry of the list returned by `git.log` in `fetchRecentCommits`
(`projectTracker.ts` line 121): hash, message, author name/email and the
parsed commit timestamp. -/
structure FetchedCommit where
  hash : String
  message : String
  author_name : String
  author_email : String
  date : Nat
deriving DecidableEq, Repr

/-- Scanner deciding whether a (non-empty) pattern occurs somewhere in a
character list. -/
def containsSubList (pat : List Char) : List Char → Bool
  | [] => false
  | c :: rest => pat.isPrefixOf (c :: rest) || containsSubList pat rest

/-- Substring containment test modelling JavaScript
`String.prototype.includes` for a non-empty pattern. -/
def strIncludes (s pat : String) : Bool :=
  containsSubList pat.toList s.toList

/-- Character-list model of `String.prototype.toLowerCase` (the messages
involved are ASCII, where the two coincide). -/
def strToLower (s : String) : String :=
  String.mk (s.toList.map Char.toLower)

/-- Character-list model of `String.prototype.toUpperCase`. -/
def strToUpper (s : String) : String :=
  String.mk (s.toList.map Char.toUpper)

/-- Character-list model of `String.prototype.startsWith`. -/
def strStartsWith (s pre : String) : Bool :=
  pre.toList.isPrefixOf s.toList

/-- Character-list model of `String.prototype.trim`. -/
def strTrim (s : String) : String :=
  String.mk (((s.toList.dropWhile Char.isWhitespace).reverse.dropWhile
    Char.isWhitespace).reverse)

/-- Fuel-bounded scanner behind `strSplitOn`: accumulate characters until
the pattern matches, emit the accumulated piece, and continue after the
pattern.  The fuel is called with more than the text length, which bounds
the number of steps. -/
def splitOnListAux (pat : List Char) : Nat → List Char → List Char → List (List Char)
  | _, acc, [] => [acc.reverse]
  | 0, acc, s => [acc.reverse ++ s]
  | fuel + 1, acc, c :: rest =>
    if pat.isPrefixOf (c :: rest) then
      acc.reverse :: splitOnListAux pat fuel [] ((c :: rest).drop pat.length)
    else splitOnListAux pat fuel (c :: acc) rest

/-- Character-list model of `String.prototype.split` on a literal
separator (also the behaviour of `String.splitOn`). -/
def strSplitOn (s pat : String) : List String :=
  if pat = "" then [s]
  else (splitOnListAux pat.toList (s.toList.length + 1) [] s.toList).map String.mk

/-- Merge-commit filter from `fetchRecentCommits` (`projectTracker.ts`
lines 134-135): the message, lower-cased, starts with `"merge "` and
contains `"pull request"`. -/
def isSkippedMerge (msg : String) : Bool :=
  strStartsWith (strToLower msg) "merge " && strIncludes (strToLower msg) "pull request"

/-- Construction of a `CommitData` from a fetched commit inside the walk of
`fetchRecentCommits` (`projectTracker.ts` lines 139-160): `files` starts
empty and is filled from `git.diffSummary([hash + "~1", hash])` when the
diff succeeds; when the diff throws (`diffs hash = none`, commonly the root
commit) `files` stays `[]`. -/
def mkCommitData (diffs : String → Option (List FileChange)) (c : FetchedCommit) :
    CommitData :=
  { hash := c.hash
    message := c.message
    author := c.author_name
    email := c.author_email
    date := c.date
    files := (diffs c.hash).getD [] }

/-- The `for (const commit of commits)` walk of `fetchRecentCommits`
(`projectTracker.ts` lines 127-164): stop at the boundary hash (`break`),
skip noisy merge commits (`continue`), and otherwise record the commit. -/
def walkCommits (boundary : Option String) (diffs : String → Option (List FileChange)) :
    List FetchedCommit → List CommitData
  | [] => []
  | c :: rest =>
    if boundary = some c.hash then []
    else if isSkippedMerge c.message then walkCommits boundary diffs rest
    else mkCommitData diffs c :: walkCommits boundary diffs rest

/-- The stored boundary hash of `fetchRecentCommits` (`projectTracker.ts`
lines 116-118): hash of `commits[0]` when any commits are stored, else
`null`. -/
def lastStoredHash (cs : List CommitData) : Option String :=
  cs.head?.map (fun c => c.hash)

/-- Core of `fetchRecentCommits` (`projectTracker.ts` lines 113-184): walk
the fetched log newest-first from the stored boundary, prepend the newly
retained commits, truncate to 1000 entries, and report whether anything new
was retained.  `log = Except.error ()` models `git.log` throwing, which the
surrounding `try/catch` turns into `return false` with no mutation. -/
def fetchRecentCommits (p : ProjectData) (log : Except Unit (List FetchedCommit))
    (diffs : String → Option (List FileChange)) : ProjectData × Bool :=
  match log with
  | .error _ => (p, false)
  | .ok fetched =>
    let newCommits := walkCommits (lastStoredHash p.commits) diffs fetched
    if 0 < newCommits.length then
      let combined := newCommits ++ p.commits
      let commits' := if 1000 < combined.length then combined.take 1000 else combined
      ({ p with commits := commits' }, true)
    else (p, false)

/-- Modelled from the spec: the "pre-truncation" reference dynamics used by
the bounded-growth property ("contains the 1000 most recent by the
pre-truncation order").  Identical to `fetchRecentCommits` with the
1000-entry truncation omitted. -/
def fetchRecentCommitsNoCap (p : ProjectData) (log : Except Unit (List FetchedCommit))
    (diffs : String → Option (List FileChange)) : ProjectData × Bool :=
  match log with
  | .error _ => (p, false)
  | .ok fetched =>
    let newCommits := walkCommits (lastStoredHash p.commits) diffs fetched
    if 0 < newCommits.length then
      ({ p with commits := newCommits ++ p.commits }, true)
    else (p, false)

/-- One sync step of `checkForNewCommits` (`projectTracker.ts` lines
86-110) for a single tracked project: run `fetchRecentCommits` on the
project's own log and diff oracle; when it reports new commits the record
is saved back with a refreshed `lastActivity`, otherwise the stored record
is left untouched. -/
def syncProjectOnce (now : Nat) (logOf : ProjectData → Except Unit (List FetchedCommit))
    (diffsOf : ProjectData → String → Option (List FileChange)) (p : ProjectData) :
    ProjectData :=
  let r := fetchRecentCommits p (logOf p) (diffsOf p)
  if r.2 then { r.1 with lastActivity := now } else p

/-- The `for` loop of `checkForNewCommits` (`projectTracker.ts` lines
85-111) over the tracked projects; the per-project `try/catch` means one
project's failure never stops the iteration. -/
def checkForNewCommits (now : Nat) (logOf : ProjectData → Except Unit (List FetchedCommit))
    (diffsOf : ProjectData → String → Option (List FileChange)) :
    List ProjectData → List ProjectData
  | [] => []
  | p :: rest =>
    syncProjectOnce now logOf diffsOf p :: checkForNewCommits now logOf diffsOf rest

/-- A sequence of sync cycles on one project: each step supplies the log
returned by the adapter and the diff oracle for that cycle. -/
def syncSeq (p : ProjectData)
    (steps : List ((Except Unit (List FetchedCommit)) × (String → Option (List FileChange)))) :
    ProjectData :=
  steps.foldl (fun q st => (fetchRecentCommits q st.1 st.2).1) p

/-- Modelled from the spec: the same sequence of sync cycles run under the
pre-truncation reference dynamics `fetchRecentCommitsNoCap`. -/
def syncSeqNoCap (p : ProjectData)
    (steps : List ((Except Unit (List FetchedCommit)) × (String → Option (List FileChange)))) :
    ProjectData :=
  steps.foldl (fun q st => (fetchRecentCommitsNoCap q st.1 st.2).1) p

/-- The `find` of `DataManager.getProject` (`dataManager.ts` lines
125-127): first stored project whose `name` matches. -/
def getProject (projects : List ProjectData) (name : String) : Option ProjectData :=
  projects.find? (fun pr => pr.name == name)

/-- The body of `DataManager.saveProject` (`dataManager.ts` lines 133-143):
replace the record at the `findIndex` position when the name already
exists, otherwise `push` the new record. -/
def saveProject (projects : List ProjectData) (pd : ProjectData) : List ProjectData :=
  match projects.findIdx? (fun pr => pr.name == pd.name) with
  | some i => projects.set i pd
  | none => projects ++ [pd]

/-- An entry of the `commitsData` array built by
`DataManager.getCommitsInDateRange` (`dataManager.ts` lines 156-174) and
consumed by every report renderer: a project name with its commits
restricted to the requested range. -/
structure ProjectCommits where
  project : String
  commits : List CommitData
deriving DecidableEq, Repr

/-- The loop of `DataManager.getCommitsInDateRange` (`dataManager.ts` lines
156-174): per project, keep the commits with timestamp inside the closed
interval, and push the project only when at least one commit survives. -/
def getCommitsInDateRange (projects : List ProjectData) (startDate endDate : Nat) :
    List ProjectCommits :=
  (projects.map (fun p =>
      ProjectCommits.mk p.name
        (p.commits.filter (fun c => startDate ≤ c.date && c.date ≤ endDate)))).filter
    (fun pc => 0 < pc.commits.length)

/-- Minutes in one calendar day of the timestamp model. -/
def minutesPerDay : Nat := 1440

/-- Calendar-day number of a timestamp; models deriving the local calendar
date from a `Date` (as `formatDate` does before rendering it). -/
def dateOf (t : Nat) : Nat := t / minutesPerDay

/-- Locale formatting environment of the report generator: `day` models
`formatDate` applied to any timestamp of the given calendar day,
`dateTime` models `formatDateTime` and `time` models `formatTime`. -/
structure DateFmt where
  day : Nat → String
  dateTime : Nat → String
  time : Nat → String

/-- Digit grouping of `Number.prototype.toLocaleString` for the en-US
locale: a comma every three digits from the right.  The helper works on the
reversed digit list. -/
def groupThousandsRev : List Char → List Char
  | a :: b :: c :: d :: rest => a :: b :: c :: ',' :: groupThousandsRev (d :: rest)
  | l => l

/-- Rendering of a number via `toLocaleString` (`reportGenerator.ts` uses
it for the lines-added / lines-deleted totals). -/
def toLocaleString (n : Nat) : String :=
  String.mk (groupThousandsRev (toString n).toList.reverse).reverse

/-- `ReportGenerator.capitalizeProjectName` (`reportGenerator.ts` lines
536-541): split the identifier on hyphens, upper-case each segment's first
character, join with spaces. -/
def capitalizeProjectName (name : String) : String :=
  String.intercalate " " ((strSplitOn name "-").map String.capitalize)

/-- Word character test of the JavaScript regex class `\w`. -/
def isWordChar (c : Char) : Bool :=
  c.isAlpha || c.isDigit || c = '_'

/-- Leading-whitespace removal corresponding to a `\s*` suffix of the
message-cleaning regexes. -/
def dropLeadingWs (cs : List Char) : List Char :=
  cs.dropWhile Char.isWhitespace

/-- Scope scanner for the optional `(\(.+?\))?` group of the
conventional-commit regex in `cleanCommitMessage`: starting right after the
opening parenthesis, find the first closing parenthesis that is preceded by
at least one scope character and followed by a colon (the lazy `.+?` with
backtracking); `.` does not cross a newline.  Returns what follows the
colon with `\s*` consumed. -/
def scanScope : List Char → Nat → Option (List Char)
  | [], _ => none
  | c :: rest, n =>
    if c = '\n' then none
    else if c = ')' && 1 ≤ n && rest.head? = some ':' then some (dropLeadingWs rest.tail)
    else scanScope rest (n + 1)

/-- One alternative of the conventional-commit prefix regex
`/^(feat|fix|docs|style|refactor|test|chore)(\(.+?\))?:\s*/i` of
`cleanCommitMessage` (`reportGenerator.ts` line 532): match the keyword
case-insensitively, then either an immediate colon or a parenthesised
scope followed by a colon; whitespace after the colon is consumed. -/
def tryConvKw (kw : String) (s : String) : Option String :=
  if (s.toList.take kw.length).map Char.toLower = kw.toList then
    match s.toList.drop kw.length with
    | ':' :: r => some (String.mk (dropLeadingWs r))
    | '(' :: r => (scanScope r 0).map String.mk
    | _ => none
  else none

/-- The keyword alternatives of the conventional-commit prefix regex, in
the regex's alternation order. -/
def convKws : List String := ["feat", "fix", "docs", "style", "refactor", "test", "chore"]

/-- The first replace of `cleanCommitMessage`: strip a conventional-commit
prefix when one of the alternatives matches at the start of the line. -/
def stripConventional (s : String) : String :=
  match convKws.findSome? (fun kw => tryConvKw kw s) with
  | some r => r
  | none => s

/-- The second replace of `cleanCommitMessage` (`/^\w+:\s*/`): strip any
other single-word prefix ending in a colon, such as `update: `. -/
def stripGenericWord (s : String) : String :=
  let cs := s.toList
  let w := cs.takeWhile isWordChar
  let r := cs.dropWhile isWordChar
  if 1 ≤ w.length && r.head? = some ':' then String.mk (dropLeadingWs r.tail) else s

/-- `ReportGenerator.cleanCommitMessage` (`reportGenerator.ts` lines
527-534): first line of the message, trimmed, conventional-commit prefix
stripped, then any other `word:` prefix stripped. -/
def cleanCommitMessage (message : String) : String :=
  stripGenericWord (stripConventional (strTrim ((strSplitOn message "\n").headD "")))

/-- `ReportGenerator.summarizeFiles` (`reportGenerator.ts` lines 511-525). -/
def summarizeFiles (files : List FileChange) : String :=
  if files.length = 0 then "No files"
  else if files.length = 1 then
    match files with
    | f :: _ => f.filename ++ " (+" ++ toString f.additions ++ "/-" ++ toString f.deletions ++ ")"
    | [] => "No files"
  else
    let totalAdditions := files.foldl (fun sum f => sum + f.additions) 0
    let totalDeletions := files.foldl (fun sum f => sum + f.deletions) 0
    toString files.length ++ " files (+" ++ toString totalAdditions ++ "/-" ++ toString totalDeletions ++ ")"

/-- One value of the `activity` object of `ReportGenerator.getDailyActivity`
(`reportGenerator.ts` line 445): commit count, distinct project display
names, file count for one calendar date. -/
structure DayActivity where
  commits : Nat
  projects : List String
  files : Nat
deriving DecidableEq, Repr

/-- Fuel-bounded unfolding of the initialisation `while` loop of
`getDailyActivity` (`reportGenerator.ts` lines 448-453): starting from the
start timestamp, emit the calendar date and advance by one day while the
running timestamp is at most the end timestamp.  The loop runs at most
`e + 1 - t` times since each step advances `t` by `minutesPerDay ≥ 1`. -/
def initKeysAux : Nat → Nat → Nat → List Nat
  | 0, _, _ => []
  | fuel + 1, t, e =>
    if t ≤ e then dateOf t :: initKeysAux fuel (t + minutesPerDay) e else []

/-- Calendar-date keys initialised by `getDailyActivity` for the range
`[t, e]`, in insertion order. -/
def initKeys (t e : Nat) : List Nat :=
  initKeysAux (e + 1 - t) t e

/-- Update of one date entry when a commit is folded into the daily
activity table (`reportGenerator.ts` lines 459-465): increment the commit
count, add the commit's file count, and append the project display name if
it is not already listed. -/
def updActivity (pname : String) (c : CommitData) (a : DayActivity) : DayActivity :=
  { commits := a.commits + 1
    projects := if pname ∈ a.projects then a.projects else a.projects ++ [pname]
    files := a.files + c.files.length }

/-- Application of one commit to the daily activity table: the entry whose
key equals the commit's calendar date (`if (activity[dateStr])`) is
updated; a commit whose date has no entry is dropped. -/
def bumpDay (pname : String) (c : CommitData) :
    List (Nat × DayActivity) → List (Nat × DayActivity)
  | [] => []
  | (d, a) :: rest =>
    if dateOf c.date = d then (d, updActivity pname c a) :: rest
    else (d, a) :: bumpDay pname c rest

/-- The population loop of `getDailyActivity` (`reportGenerator.ts` lines
456-467): fold every commit of every project of the slice into the table. -/
def populate (commitsData : List ProjectCommits) (table : List (Nat × DayActivity)) :
    List (Nat × DayActivity) :=
  commitsData.foldl
    (fun tb pd =>
      pd.commits.foldl (fun tb c => bumpDay (capitalizeProjectName pd.project) c tb) tb)
    table

/-- `ReportGenerator.getDailyActivity` (`reportGenerator.ts` lines
444-470): initialise one zero entry per generated date key, then fold the
slice's commits in. -/
def getDailyActivity (commitsData : List ProjectCommits) (startDate endDate : Nat) :
    List (Nat × DayActivity) :=
  populate commitsData ((initKeys startDate endDate).map (fun d => (d, ⟨0, [], 0⟩)))

/-- The `totalCommits` aggregate of `generateMarkdownReport`
(`reportGenerator.ts` line 51). -/
def totalCommits (commitsData : List ProjectCommits) : Nat :=
  commitsData.foldl (fun sum pd => sum + pd.commits.length) 0

/-- The `totalProjects` aggregate of `generateMarkdownReport`
(`reportGenerator.ts` line 52). -/
def totalProjects (commitsData : List ProjectCommits) : Nat :=
  commitsData.length

/-- The `totalFiles` aggregate of `generateMarkdownReport`
(`reportGenerator.ts` lines 53-54). -/
def totalFiles (commitsData : List ProjectCommits) : Nat :=
  commitsData.foldl
    (fun sum pd => sum + pd.commits.foldl (fun fileSum c => fileSum + c.files.length) 0) 0

/-- The `totalAdditions` aggregate of `generateMarkdownReport`
(`reportGenerator.ts` lines 55-57). -/
def totalAdditions (commitsData : List ProjectCommits) : Nat :=
  commitsData.foldl
    (fun sum pd =>
      sum + pd.commits.foldl
        (fun addSum c => addSum + c.files.foldl (fun lineSum f => lineSum + f.additions) 0) 0) 0

/-- The `totalDeletions` aggregate of `generateMarkdownReport`
(`reportGenerator.ts` lines 58-60). -/
def totalDeletions (commitsData : List ProjectCommits) : Nat :=
  commitsData.foldl
    (fun sum pd =>
      sum + pd.commits.foldl
        (fun delSum c => delSum + c.files.foldl (fun lineSum f => lineSum + f.deletions) 0) 0) 0

/-- `ReportGenerator.groupCommitsByDate` (`reportGenerator.ts` lines
420-442): group a commit list by calendar date, order the dates
descending, and order the commits inside one date by timestamp descending
(`Array.prototype.sort` is stable, modelled by `List.mergeSort`). -/
def groupCommitsByDate (commits : List CommitData) : List (Nat × List CommitData) :=
  let days := (commits.map (fun c => dateOf c.date)).foldl
    (fun acc d => if d ∈ acc then acc else acc ++ [d]) []
  (days.mergeSort (fun d₁ d₂ => d₂ ≤ d₁)).map
    (fun d =>
      (d, (commits.filter (fun c => dateOf c.date == d)).mergeSort
            (fun c₁ c₂ => c₂.date ≤ c₁.date)))

/-- The per-commit lines pushed by the markdown project-details loop
(`reportGenerator.ts` lines 86-93). -/
def commitLinesMd (fmt : DateFmt) (c : CommitData) : List String :=
  ("- **" ++ fmt.time c.date ++ "** - " ++ cleanCommitMessage c.message) ::
    (if 0 < c.files.length then ["  - Files: " ++ summarizeFiles c.files] else [])

/-- One date group of the markdown project-details section
(`reportGenerator.ts` lines 82-95). -/
def dateGroupLinesMd (fmt : DateFmt) (g : Nat × List CommitData) : List String :=
  ["#### " ++ fmt.day g.1, ""] ++ g.2.flatMap (commitLinesMd fmt) ++ [""]

/-- One project block of the markdown project-details section
(`reportGenerator.ts` lines 74-96). -/
def projectDetailLinesMd (fmt : DateFmt) (pd : ProjectCommits) : List String :=
  ["### " ++ capitalizeProjectName pd.project,
   "**Commits:** " ++ toString pd.commits.length, ""] ++
    (groupCommitsByDate pd.commits).flatMap (dateGroupLinesMd fmt)

/-- The entries pushed by the markdown daily-breakdown loop
(`reportGenerator.ts` lines 104-112): only dates with a positive commit
count produce output. -/
def dailyBreakdownMd (fmt : DateFmt) (table : List (Nat × DayActivity)) : List String :=
  table.flatMap (fun da =>
    if 0 < da.2.commits then
      ["### " ++ fmt.day da.1,
       "- **Commits:** " ++ toString da.2.commits,
       "- **Projects:** " ++ String.intercalate ", " da.2.projects,
       "- **Files modified:** " ++ toString da.2.files,
       ""]
    else [])

/-- The summary block of `generateMarkdownReport` (`reportGenerator.ts`
lines 62-68). -/
def summaryLinesMd (commitsData : List ProjectCommits) : List String :=
  ["## Summary",
   "- **Projects worked on:** " ++ toString (totalProjects commitsData),
   "- **Total commits:** " ++ toString (totalCommits commitsData),
   "- **Files modified:** " ++ toString (totalFiles commitsData),
   "- **Lines added:** " ++ toLocaleString (totalAdditions commitsData),
   "- **Lines deleted:** " ++ toLocaleString (totalDeletions commitsData),
   ""]

/-- The `report` array of `ReportGenerator.generateMarkdownReport`
(`reportGenerator.ts` lines 41-120) before the final `join("\n")`. -/
def generateMarkdownLines (fmt : DateFmt) (now : Nat) (commitsData : List ProjectCommits)
    (startDate endDate : Nat) : List String :=
  ["# Work Report",
   "**Period:** " ++ fmt.day (dateOf startDate) ++ " to " ++ fmt.day (dateOf endDate),
   "**Generated:** " ++ fmt.dateTime now, ""] ++
  summaryLinesMd commitsData ++
  ["## Project Details", ""] ++
  commitsData.flatMap (projectDetailLinesMd fmt) ++
  ["## Daily Breakdown", ""] ++
  dailyBreakdownMd fmt (getDailyActivity commitsData startDate endDate) ++
  ["", "---", "",
   "*Generated by [Project Report Compiler](https://github.com/blessingmwiti/project-report-compiler)*"]

/-- `ReportGenerator.generateMarkdownReport` as the joined document
string. -/
def generateMarkdownReport (fmt : DateFmt) (now : Nat) (commitsData : List ProjectCommits)
    (startDate endDate : Nat) : String :=
  String.intercalate "\n" (generateMarkdownLines fmt now commitsData startDate endDate)

/-- Character repetition modelling `String.prototype.repeat` (with the
fractional count already truncated to a natural number, as JavaScript
does). -/
def repeatChar (c : Char) (n : Nat) : String :=
  String.mk (List.replicate n c)

/-- The per-commit lines pushed by the plain-text project-details loop
(`reportGenerator.ts` lines 275-284). -/
def commitLinesTxt (fmt : DateFmt) (c : CommitData) : List String :=
  ("   • " ++ fmt.time c.date ++ " - " ++ cleanCommitMessage c.message) ::
    (if 0 < c.files.length then ["     📄 Files: " ++ summarizeFiles c.files] else [])

/-- One date group of the plain-text project-details section
(`reportGenerator.ts` lines 271-286). -/
def dateGroupLinesTxt (fmt : DateFmt) (g : Nat × List CommitData) : List String :=
  ["   📅 " ++ fmt.day g.1,
   "   " ++ repeatChar '·' ((fmt.day g.1).length + 4)] ++
    g.2.flatMap (commitLinesTxt fmt) ++ [""]

/-- One project block of the plain-text project-details section
(`reportGenerator.ts` lines 262-287). -/
def projectDetailLinesTxt (fmt : DateFmt) (pd : ProjectCommits) : List String :=
  ["🔶 " ++ strToUpper (capitalizeProjectName pd.project),
   "   Commits: " ++ toString pd.commits.length, ""] ++
    (groupCommitsByDate pd.commits).flatMap (dateGroupLinesTxt fmt)

/-- The entries pushed by the plain-text daily-breakdown loop
(`reportGenerator.ts` lines 296-304): only dates with a positive commit
count produce output. -/
def dailyBreakdownTxt (fmt : DateFmt) (table : List (Nat × DayActivity)) : List String :=
  table.flatMap (fun da =>
    if 0 < da.2.commits then
      ["🗓️  " ++ fmt.day da.1,
       "   • Commits: " ++ toString da.2.commits,
       "   • Projects: " ++ String.intercalate ", " da.2.projects,
       "   • Files modified: " ++ toString da.2.files,
       ""]
    else [])

/-- The `report` array of `ReportGenerator.generatePlainTextReport`
(`reportGenerator.ts` lines 211-313) before the final `join("\n")`,
including the redundant in-function empty-slice early return. -/
def generatePlainTextLines (fmt : DateFmt) (now : Nat) (commitsData : List ProjectCommits)
    (startDate endDate : Nat) : List String :=
  [repeatChar '═' 60,
   repeatChar ' ' ((60 - "WORK REPORT".length) / 2) ++ "WORK REPORT",
   repeatChar '═' 60, "",
   "📅 PERIOD: " ++ fmt.day (dateOf startDate) ++ " to " ++ fmt.day (dateOf endDate),
   "🕒 GENERATED: " ++ fmt.dateTime now, ""] ++
  (if commitsData.length = 0 then
    ["❌ No commits found for this period.", "",
     repeatChar '─' 60,
     "Generated by Project Report Compiler",
     "https://github.com/blessingmwiti/project-report-compiler"]
  else
    ["📊 SUMMARY", repeatChar '─' 20,
     "• Projects worked on: " ++ toString (totalProjects commitsData),
     "• Total commits: " ++ toString (totalCommits commitsData),
     "• Files modified: " ++ toString (totalFiles commitsData),
     "• Lines added: " ++ toLocaleString (totalAdditions commitsData),
     "• Lines deleted: " ++ toLocaleString (totalDeletions commitsData), ""] ++
    ["📁 PROJECT DETAILS", repeatChar '─' 30, ""] ++
    commitsData.flatMap (projectDetailLinesTxt fmt) ++
    ["📅 DAILY BREAKDOWN", repeatChar '─' 25, ""] ++
    dailyBreakdownTxt fmt (getDailyActivity commitsData startDate endDate) ++
    [repeatChar '─' 60, "",
     "🔗 Generated by Project Report Compiler",
     "   https://github.com/blessingmwiti/project-report-compiler"])

/-- `ReportGenerator.generatePlainTextReport` as the joined document
string. -/
def generatePlainTextReport (fmt : DateFmt) (now : Nat) (commitsData : List ProjectCommits)
    (startDate endDate : Nat) : String :=
  String.intercalate "\n" (generatePlainTextLines fmt now commitsData startDate endDate)

/-- Split a character list at the first occurrence of a (non-empty)
pattern, returning the part before it and the part after it. -/
def splitFirst (pat : List Char) : List Char → Option (List Char × List Char)
  | [] => none
  | c :: rest =>
    if pat.isPrefixOf (c :: rest) then some ([], (c :: rest).drop pat.length)
    else (splitFirst pat rest).map (fun pr => (c :: pr.1, pr.2))

/-- Fuel-bounded global replacement of a literal (non-empty) pattern,
modelling `String.replace` / a global non-regex `replace`. -/
def strReplaceAux (pat rep : List Char) : Nat → List Char → List Char
  | 0, s => s
  | fuel + 1, s =>
    match splitFirst pat s with
    | none => s
    | some (a, b) => a ++ rep ++ strReplaceAux pat rep fuel b

/-- String wrapper for `strReplaceAux`. -/
def strReplace (s pat rep : String) : String :=
  if pat = "" then s
  else String.mk (strReplaceAux pat.toList rep.toList (s.toList.length + 1) s.toList)

/-- Fuel-bounded scanner for the non-greedy paired-delimiter regexes of
`generateHtmlReport` (`/\*\*(.*?)\*\*/g` and `/\*(.*?)\*/g`): every
leftmost delimiter pair is replaced by `pre content post`.  The fuel is
called with more than the text length, which bounds the number of pairs. -/
def replacePairsAux (d pre post : List Char) : Nat → List Char → List Char
  | 0, s => s
  | fuel + 1, s =>
    match splitFirst d s with
    | none => s
    | some (a, b) =>
      match splitFirst d b with
      | none => s
      | some (inner, c) => a ++ pre ++ inner ++ post ++ replacePairsAux d pre post fuel c

/-- String wrapper for `replacePairsAux`. -/
def replacePairs (d pre post s : String) : String :=
  String.mk (replacePairsAux d.toList pre.toList post.toList (s.toList.length + 1) s.toList)

/-- The replacement text of the markdown-link regex of
`generateHtmlReport` (`reportGenerator.ts` line 198). -/
def htmlLink (txt url : List Char) : List Char :=
  ("<a href=\"".toList) ++ url ++ ("\" style=\"color: #2563eb; text-decoration: none;\">".toList)
    ++ txt ++ ("</a>".toList)

/-- Fuel-bounded scanner for the markdown-link regex
`/\[([^\]]+)\]\(([^)]+)\)/g`: a bracketed, non-empty label immediately
followed by a parenthesised, non-empty target is rewritten to an anchor;
an opening bracket that does not start a full match is kept and scanning
resumes after it. -/
def replaceLinksAux : Nat → List Char → List Char
  | 0, s => s
  | fuel + 1, s =>
    match splitFirst ['['] s with
    | none => s
    | some (a, b) =>
      match splitFirst [']'] b with
      | none => s
      | some (txt, c) =>
        if txt.length = 0 then a ++ '[' :: replaceLinksAux fuel b
        else
          match c with
          | '(' :: c2 =>
            match splitFirst [')'] c2 with
            | none => s
            | some (url, rest) =>
              if url.length = 0 then a ++ '[' :: replaceLinksAux fuel b
              else a ++ htmlLink txt url ++ replaceLinksAux fuel rest
          | _ => a ++ '[' :: replaceLinksAux fuel b

/-- String wrapper for `replaceLinksAux`. -/
def replaceLinks (s : String) : String :=
  String.mk (replaceLinksAux (s.toList.length + 1) s.toList)

/-- The four line-anchored heading replaces of `generateHtmlReport`
(`reportGenerator.ts` lines 192-195), applied per line. -/
def applyHeadings (line : String) : String :=
  if strStartsWith line "# " then
    "<h1 style=\"color: #2563eb; border-bottom: 2px solid #e5e7eb; padding-bottom: 8px;\">"
      ++ String.mk (line.toList.drop 2) ++ "</h1>"
  else if strStartsWith line "## " then
    "<h2 style=\"color: #374151; margin-top: 24px; margin-bottom: 12px;\">"
      ++ String.mk (line.toList.drop 3) ++ "</h2>"
  else if strStartsWith line "### " then
    "<h3 style=\"color: #4b5563; margin-top: 20px; margin-bottom: 8px;\">"
      ++ String.mk (line.toList.drop 4) ++ "</h3>"
  else if strStartsWith line "#### " then
    "<h4 style=\"color: #6b7280; margin-top: 16px; margin-bottom: 6px;\">"
      ++ String.mk (line.toList.drop 5) ++ "</h4>"
  else line

/-- The bold, emphasis and link replaces of `generateHtmlReport`
(`reportGenerator.ts` lines 196-198), applied per line (the patterns do
not cross a newline). -/
def applyBoldEmLinks (line : String) : String :=
  replaceLinks
    (replacePairs "*" "<em>" "</em>"
      (replacePairs "**" "<strong style=\"color: #1f2937;\">" "</strong>" line))

/-- The line-anchored list-item and rule replaces of `generateHtmlReport`
(`reportGenerator.ts` lines 199-200). -/
def applyLiHr (line : String) : String :=
  if strStartsWith line "- " then
    "<li style=\"margin-bottom: 4px;\">" ++ String.mk (line.toList.drop 2) ++ "</li>"
  else if line = "---" then
    "<hr style=\"border: none; border-top: 1px solid #e5e7eb; margin: 24px 0;\">"
  else line

/-- Fuel-bounded scanner for the final list-wrapping replace of
`generateHtmlReport` (`/(<li[^>]*>.*?<\/li>)/gs`, line 206): every
`<li ... </li>` chunk is wrapped in a styled `<ul>`. -/
def wrapLisAux : Nat → List Char → List Char
  | 0, s => s
  | fuel + 1, s =>
    match splitFirst ("<li".toList) s with
    | none => s
    | some (a, b) =>
      match splitFirst ("</li>".toList) b with
      | none => s
      | some (mid, c) =>
        a ++ ("<ul style=\"margin-bottom: 12px; padding-left: 20px;\">".toList)
          ++ ("<li".toList) ++ mid ++ ("</li>".toList) ++ ("</ul>".toList) ++ wrapLisAux fuel c

/-- The markdown-to-HTML conversion pipeline of
`ReportGenerator.generateHtmlReport` (`reportGenerator.ts` lines 187-209);
the global regex replaces are modelled by equivalent leftmost scanners. -/
def htmlOfMarkdown (md : String) : String :=
  let s1 := String.intercalate "\n"
    ((strSplitOn md "\n").map (fun l => applyLiHr (applyBoldEmLinks (applyHeadings l))))
  let s2 := strReplace s1 "\n\n" "</p><p style=\"margin-bottom: 12px; line-height: 1.6;\">"
  let s3 :=
    "<div style=\"font-family: Arial, sans-serif; max-width: 800px; margin: 0 auto; padding: 20px;\"><p style=\"margin-bottom: 12px; line-height: 1.6;\">"
      ++ s2 ++ "</p></div>"
  String.mk (wrapLisAux (s3.toList.length + 1) s3.toList)

/-- `ReportGenerator.generateHtmlReport` (`reportGenerator.ts` lines
187-209): the markdown report converted to HTML. -/
def generateHtmlReport (fmt : DateFmt) (now : Nat) (commitsData : List ProjectCommits)
    (startDate endDate : Nat) : String :=
  htmlOfMarkdown (generateMarkdownReport fmt now commitsData startDate endDate)

/-- `ReportGenerator.formatNoDataMessage` (`reportGenerator.ts` lines
400-418); note that an unrecognized `format` falls into the markdown
default here as well. -/
def formatNoDataMessage (fmt : DateFmt) (startDate endDate : Nat) (format : String) : String :=
  let message := "No commits found between " ++ fmt.day (dateOf startDate) ++ " and "
    ++ fmt.day (dateOf endDate) ++ "."
  match format with
  | "html" =>
    "<div style=\"font-family: Arial, sans-serif; max-width: 800px; margin: 0 auto; padding: 20px;\">\n"
      ++ "                    <h1 style=\"color: #2563eb; border-bottom: 2px solid #e5e7eb; padding-bottom: 8px;\">Work Report</h1>\n"
      ++ "                    <p style=\"margin-bottom: 12px; line-height: 1.6;\">" ++ message ++ "</p>\n"
      ++ "                    <hr style=\"border: none; border-top: 1px solid #e5e7eb; margin: 24px 0;\">\n"
      ++ "                    <p style=\"margin-bottom: 12px; line-height: 1.6;\">\n"
      ++ "                        <em>Generated by <a href=\"https://github.com/blessingmwiti/project-report-compiler\" style=\"color: #2563eb; text-decoration: none;\">Project Report Compiler</a></em>\n"
      ++ "                    </p>\n"
      ++ "                </div>"
  | "txt" =>
    "WORK REPORT\n" ++ repeatChar '═' 60 ++ "\n\n❌ " ++ message ++ "\n\n"
      ++ repeatChar '─' 60
      ++ "\n🔗 Generated by Project Report Compiler\n   https://github.com/blessingmwiti/project-report-compiler"
  | _ =>
    "# Work Report\n\n" ++ message
      ++ "\n\n---\n\n*Generated by [Project Report Compiler](https://github.com/blessingmwiti/project-report-compiler)*"

/-- `ReportGenerator.generateReport` (`reportGenerator.ts` lines 7-25):
read the slice for the requested range, short-circuit to the no-data
message when it is empty, and otherwise dispatch on the format selector
(`format` is the `reportFormat` configuration value, default
`"markdown"`).  The result type records that the surrounding command
surface treats a rejected promise as an error; the function itself never
produces one. -/
def generateReport (fmt : DateFmt) (now : Nat) (format : String)
    (projects : List ProjectData) (startDate endDate : Nat) : Except String String :=
  let commitsData := getCommitsInDateRange projects startDate endDate
  if commitsData.length = 0 then .ok (formatNoDataMessage fmt startDate endDate format)
  else
    match format with
    | "html" => .ok (generateHtmlReport fmt now commitsData startDate endDate)
    | "txt" => .ok (generatePlainTextReport fmt now commitsData startDate endDate)
    | _ => .ok (generateMarkdownReport fmt now commitsData startDate endDate)

theorem walkCommits_stop_at_head (b : Option String) (diffs : String → Option (List FileChange)) :
    ∀ (fetched : List FetchedCommit) (c : CommitData) (cs : List CommitData),
      walkCommits b diffs fetched = c :: cs →
      walkCommits (some c.hash) diffs fetched = [] := by
  intro fetched
  induction fetched with
  | nil => intro c cs h; simp [walkCommits] at h
  | cons f rest ih =>
    intro c cs h
    by_cases hb : b = some f.hash
    · simp [walkCommits, hb] at h
    · by_cases hs : isSkippedMerge f.message
      · simp only [walkCommits, if_neg hb, if_pos hs] at h
        by_cases hc : (some c.hash : Option String) = some f.hash
        · simp [walkCommits, hc]
        · simp only [walkCommits, if_neg hc, if_pos hs]
          exact ih c cs h
      · simp only [walkCommits, if_neg hb, if_neg hs, List.cons.injEq] at h
        have hhash : c.hash = f.hash := by
          rw [← h.1]; rfl
        simp [walkCommits, hhash]

theorem fetchRecentCommits_ok_idem (q : ProjectData) (g : List FetchedCommit)
    (d : String → Option (List FileChange)) :
    fetchRecentCommits ((fetchRecentCommits q (Except.ok g) d).1) (Except.ok g) d
      = ((fetchRecentCommits q (Except.ok g) d).1, false) := by
  cases hw : walkCommits (lastStoredHash q.commits) d g with
  | nil =>
    have h1 : fetchRecentCommits q (Except.ok g) d = (q, false) := by
      simp [fetchRecentCommits, hw]
    rw [h1]
    simp [fetchRecentCommits, hw]
  | cons c cs =>
    have hstop : walkCommits (some c.hash) d g = [] :=
      walkCommits_stop_at_head (lastStoredHash q.commits) d g c cs hw
    have hcons : ∃ t, ((fetchRecentCommits q (Except.ok g) d).1).commits = c :: t := by
      by_cases hlen : 1000 < (c :: (cs ++ q.commits)).length
      · exact ⟨List.take 999 (cs ++ q.commits),
          by simp [fetchRecentCommits, hw, hlen, List.take_succ_cons]⟩
      · have hlen' : ¬ 1000 < cs.length + q.commits.length + 1 := by
          simp at hlen; omega
        exact ⟨cs ++ q.commits, by simp [fetchRecentCommits, hw, hlen']⟩
    obtain ⟨t, ht⟩ := hcons
    set p₁ := (fetchRecentCommits q (Except.ok g) d).1 with hp₁
    have hlast : lastStoredHash p₁.commits = some c.hash := by
      rw [ht]; simp [lastStoredHash]
    simp only [fetchRecentCommits, hlast, hstop, List.length_nil]
    simp

/-- C1: when the newest stored commit hash equals the newest fetched hash,
the walk of `fetchRecentCommits` retains zero commits and the sync returns
the record unchanged with `changed = false`; moreover a second run of
`fetchRecentCommits` on the result of any run with the same fetched log
always leaves the record unchanged and reports `changed = false`. -/
theorem sync_boundary_noop_and_idempotent
    (p : ProjectData) (fetched : List FetchedCommit)
    (diffs : String → Option (List FileChange))
    (c : CommitData) (cs : List CommitData) (f : FetchedCommit) (fs : List FetchedCommit)
    (hp : p.commits = c :: cs) (hf : fetched = f :: fs) (hh : c.hash = f.hash) :
    walkCommits (lastStoredHash p.commits) diffs fetched = []
    ∧ fetchRecentCommits p (Except.ok fetched) diffs = (p, false)
    ∧ ∀ (q : ProjectData) (g : List FetchedCommit) (d : String → Option (List FileChange)),
        fetchRecentCommits ((fetchRecentCommits q (Except.ok g) d).1) (Except.ok g) d
          = ((fetchRecentCommits q (Except.ok g) d).1, false) := by
  have hlast : lastStoredHash p.commits = some f.hash := by
    rw [hp]; simp [lastStoredHash, hh]
  have hwalk : walkCommits (lastStoredHash p.commits) diffs fetched = [] := by
    rw [hf, hlast]; simp [walkCommits]
  refine ⟨hwalk, ?_, ?_⟩
  · simp [fetchRecentCommits, hwalk]
  · intro q g d
    exact fetchRecentCommits_ok_idem q g d

/-- Witness for C1 at a concrete record and fetched log whose newest
hashes agree. -/
theorem sync_boundary_noop_witness :
    walkCommits (lastStoredHash [⟨"aaa", "m", "x", "y", 0, []⟩])
        (fun _ => none) [⟨"aaa", "m2", "x", "y", 5⟩] = []
    ∧ fetchRecentCommits
        ⟨"demo", "/tmp/demo", [⟨"aaa", "m", "x", "y", 0, []⟩], 7, 3⟩
        (Except.ok [⟨"aaa", "m2", "x", "y", 5⟩]) (fun _ => none)
      = (⟨"demo", "/tmp/demo", [⟨"aaa", "m", "x", "y", 0, []⟩], 7, 3⟩, false) := by
  have h := sync_boundary_noop_and_idempotent
    ⟨"demo", "/tmp/demo", [⟨"aaa", "m", "x", "y", 0, []⟩], 7, 3⟩
    [⟨"aaa", "m2", "x", "y", 5⟩] (fun _ => none)
    ⟨"aaa", "m", "x", "y", 0, []⟩ [] ⟨"aaa", "m2", "x", "y", 5⟩ []
    rfl rfl rfl
  exact ⟨h.1, h.2.1⟩

theorem checkForNewCommits_append (now : Nat)
    (logOf : ProjectData → Except Unit (List FetchedCommit))
    (diffsOf : ProjectData → String → Option (List FileChange))
    (xs ys : List ProjectData) :
    checkForNewCommits now logOf diffsOf (xs ++ ys)
      = checkForNewCommits now logOf diffsOf xs ++ checkForNewCommits now logOf diffsOf ys := by
  induction xs with
  | nil => rfl
  | cons x xs ih => simp [checkForNewCommits, ih]

/-- C4: a throwing history fetch (`git.log`) leaves the project record
unchanged with `changed = false`, and inside a `checkForNewCommits` cycle
the failing project is passed through unchanged while every other tracked
project is still synced exactly as it would have been on its own. -/
theorem sync_fetch_failure_isolated (p : ProjectData)
    (diffs : String → Option (List FileChange)) (now : Nat)
    (logOf : ProjectData → Except Unit (List FetchedCommit))
    (diffsOf : ProjectData → String → Option (List FileChange))
    (ps₁ ps₂ : List ProjectData) (herr : logOf p = Except.error ()) :
    fetchRecentCommits p (Except.error ()) diffs = (p, false)
    ∧ checkForNewCommits now logOf diffsOf (ps₁ ++ p :: ps₂)
        = checkForNewCommits now logOf diffsOf ps₁
          ++ p :: checkForNewCommits now logOf diffsOf ps₂ := by
  constructor
  · rfl
  · rw [checkForNewCommits_append]
    have hone : syncProjectOnce now logOf diffsOf p = p := by
      simp [syncProjectOnce, herr, fetchRecentCommits]
    simp [checkForNewCommits, hone]

/-- Witness for C4: a two-project cycle where the first project's history
fetch throws and the second succeeds with one fresh commit. -/
theorem sync_fetch_failure_isolated_witness :
    fetchRecentCommits ⟨"bad", "/b", [], 0, 0⟩ (Except.error ()) (fun _ => none)
      = (⟨"bad", "/b", [], 0, 0⟩, false)
    ∧ checkForNewCommits 9
        (fun q => if q.name = "bad" then Except.error () else Except.ok [⟨"h1", "m", "a", "e", 5⟩])
        (fun _ _ => none)
        ([] ++ ⟨"bad", "/b", [], 0, 0⟩ :: [⟨"good", "/g", [], 0, 0⟩])
      = checkForNewCommits 9
          (fun q => if q.name = "bad" then Except.error () else Except.ok [⟨"h1", "m", "a", "e", 5⟩])
          (fun _ _ => none) []
        ++ ⟨"bad", "/b", [], 0, 0⟩ ::
          checkForNewCommits 9
            (fun q => if q.name = "bad" then Except.error () else Except.ok [⟨"h1", "m", "a", "e", 5⟩])
            (fun _ _ => none) [⟨"good", "/g", [], 0, 0⟩] :=
  sync_fetch_failure_isolated ⟨"bad", "/b", [], 0, 0⟩ (fun _ => none) 9
    (fun q => if q.name = "bad" then Except.error () else Except.ok [⟨"h1", "m", "a", "e", 5⟩])
    (fun _ _ => none) [] [⟨"good", "/g", [], 0, 0⟩] rfl

theorem walkCommits_not_skipped (b : Option String)
    (diffs : String → Option (List FileChange)) :
    ∀ (l : List FetchedCommit) (dC : CommitData), dC ∈ walkCommits b diffs l →
      isSkippedMerge dC.message = false := by
  intro l
  induction l with
  | nil => intro dC h; simp [walkCommits] at h
  | cons f rest ih =>
    intro dC h
    by_cases hb : b = some f.hash
    · simp [walkCommits, hb] at h
    · by_cases hs : isSkippedMerge f.message
      · simp only [walkCommits, if_neg hb, if_pos hs] at h
        exact ih dC h
      · simp only [walkCommits, if_neg hb, if_neg hs, List.mem_cons] at h
        rcases h with h | h
        · subst h
          simpa [mkCommitData] using Bool.not_eq_true _ ▸ (by simpa using hs)
        · exact ih dC h

theorem walkCommits_mem_retained (b : Option String)
    (diffs : String → Option (List FileChange)) (c : FetchedCommit)
    (post : List FetchedCommit) :
    ∀ (pre : List FetchedCommit), (∀ a ∈ pre, b ≠ some a.hash) → b ≠ some c.hash →
      isSkippedMerge c.message = false →
      mkCommitData diffs c ∈ walkCommits b diffs (pre ++ c :: post) := by
  intro pre
  induction pre with
  | nil =>
    intro _ h2 h3
    simp [walkCommits, h2, h3]
  | cons a pre ih =>
    intro h1 h2 h3
    have ha : b ≠ some a.hash := h1 a (List.mem_cons_self a pre)
    have h1' : ∀ x ∈ pre, b ≠ some x.hash := fun x hx => h1 x (List.mem_cons_of_mem a hx)
    by_cases hs : isSkippedMerge a.message
    · simpa [walkCommits, ha, hs] using ih h1' h2 h3
    · simp only [List.cons_append, walkCommits, if_neg (by simpa using ha), if_neg hs]
      exact List.mem_cons_of_mem _ (ih h1' h2 h3)

theorem fetchRecentCommits_commits_subset (p : ProjectData) (fetched : List FetchedCommit)
    (diffs : String → Option (List FileChange)) :
    ((fetchRecentCommits p (Except.ok fetched) diffs).1).commits
      ⊆ walkCommits (lastStoredHash p.commits) diffs fetched ++ p.commits := by
  simp only [fetchRecentCommits]
  split
  · split
    · exact fun x hx => List.take_subset _ _ hx
    · exact fun x hx => hx
  · exact fun x hx => List.mem_append_right _ hx

/-- C3: no commit recorded by the walk has a skippable merge message
(lower-cased message starting with `"merge "` and containing
`"pull request"`); consequently a ledger free of such messages stays free
of them across a sync; and a fetched commit that is reached before the
boundary and is not skippable (for example `"Merge branch 'dev'"`) is
retained by the walk. -/
theorem merge_filter_correct (p : ProjectData) (fetched pre post : List FetchedCommit)
    (c : FetchedCommit) (diffs : String → Option (List FileChange)) :
    (∀ dC ∈ walkCommits (lastStoredHash p.commits) diffs fetched,
        isSkippedMerge dC.message = false)
    ∧ ((∀ dC ∈ p.commits, isSkippedMerge dC.message = false) →
        ∀ dC ∈ ((fetchRecentCommits p (Except.ok fetched) diffs).1).commits,
          isSkippedMerge dC.message = false)
    ∧ (fetched = pre ++ c :: post →
        (∀ a ∈ pre, lastStoredHash p.commits ≠ some a.hash) →
        lastStoredHash p.commits ≠ some c.hash →
        isSkippedMerge c.message = false →
        mkCommitData diffs c ∈ walkCommits (lastStoredHash p.commits) diffs fetched) := by
  refine ⟨fun dC h => walkCommits_not_skipped _ diffs fetched dC h, ?_, ?_⟩
  · intro hold dC hmem
    have h2 := fetchRecentCommits_commits_subset p fetched diffs hmem
    rcases List.mem_append.1 h2 with h3 | h3
    · exact walkCommits_not_skipped _ diffs fetched dC h3
    · exact hold dC h3
  · intro hf h1 h2 h3
    rw [hf]
    exact walkCommits_mem_retained _ diffs c post pre h1 h2 h3

/-- Witness for C3: a log holding a skipped bot merge
(`"Merge pull request #12 from x/y"`) followed by a manual merge
(`"Merge branch 'dev'"`); the manual merge is retained. -/
theorem merge_filter_correct_witness :
    isSkippedMerge "Merge pull request #12 from x/y" = true
    ∧ isSkippedMerge "Merge branch 'dev'" = false
    ∧ mkCommitData (fun _ => none) ⟨"h2", "Merge branch 'dev'", "a", "e", 4⟩
        ∈ walkCommits (lastStoredHash ([] : List CommitData)) (fun _ => none)
            ([⟨"h1", "Merge pull request #12 from x/y", "a", "e", 5⟩]
              ++ ⟨"h2", "Merge branch 'dev'", "a", "e", 4⟩ :: []) := by
  refine ⟨by decide, by decide, ?_⟩
  exact (merge_filter_correct ⟨"demo", "/d", [], 0, 0⟩
      ([⟨"h1", "Merge pull request #12 from x/y", "a", "e", 5⟩]
        ++ ⟨"h2", "Merge branch 'dev'", "a", "e", 4⟩ :: [])
      [⟨"h1", "Merge pull request #12 from x/y", "a", "e", 5⟩] []
      ⟨"h2", "Merge branch 'dev'", "a", "e", 4⟩ (fun _ => none)).2.2
    rfl (by decide) (by decide) (by decide)

/-- C5: a retained commit whose diff cannot be produced
(`diffs hash = none`, for example the root commit) is still recorded, with
`files` equal to the empty sequence, and the sync completes normally with
`changed = true` and the record present in the written-back ledger. -/
theorem root_commit_tolerated (p : ProjectData) (fetched pre post : List FetchedCommit)
    (c : FetchedCommit) (diffs : String → Option (List FileChange))
    (hf : fetched = pre ++ c :: post)
    (h1 : ∀ a ∈ pre, lastStoredHash p.commits ≠ some a.hash)
    (h2 : lastStoredHash p.commits ≠ some c.hash)
    (h3 : isSkippedMerge c.message = false)
    (h4 : diffs c.hash = none)
    (h5 : (walkCommits (lastStoredHash p.commits) diffs fetched).length
            + p.commits.length ≤ 1000) :
    mkCommitData diffs c
      = ⟨c.hash, c.message, c.author_name, c.author_email, c.date, []⟩
    ∧ (⟨c.hash, c.message, c.author_name, c.author_email, c.date, []⟩ : CommitData)
        ∈ ((fetchRecentCommits p (Except.ok fetched) diffs).1).commits
    ∧ (fetchRecentCommits p (Except.ok fetched) diffs).2 = true := by
  have hrec : mkCommitData diffs c
      = ⟨c.hash, c.message, c.author_name, c.author_email, c.date, []⟩ := by
    simp [mkCommitData, h4]
  have hmem : mkCommitData diffs c
      ∈ walkCommits (lastStoredHash p.commits) diffs fetched := by
    rw [hf]
    exact walkCommits_mem_retained _ diffs c post pre h1 h2 h3
  have hpos : 0 < (walkCommits (lastStoredHash p.commits) diffs fetched).length :=
    List.length_pos.2 (List.ne_nil_of_mem hmem)
  have hnotlong : ¬ 1000 <
      (walkCommits (lastStoredHash p.commits) diffs fetched ++ p.commits).length := by
    simp only [List.length_append]
    omega
  refine ⟨hrec, ?_, ?_⟩
  · have : ((fetchRecentCommits p (Except.ok fetched) diffs).1).commits
        = walkCommits (lastStoredHash p.commits) diffs fetched ++ p.commits := by
      simp [fetchRecentCommits, hpos, hnotlong]
      omega
    rw [this, ← hrec]
    exact List.mem_append_left _ hmem
  · simp [fetchRecentCommits, hpos]

/-- Witness for C5: a single fetched root commit whose diff fails; it is
recorded with empty `files` and the sync reports a change. -/
theorem root_commit_tolerated_witness :
    (⟨"r", "init", "a", "e", 2, []⟩ : CommitData)
      ∈ ((fetchRecentCommits ⟨"demo", "/d", [], 0, 0⟩
            (Except.ok [⟨"r", "init", "a", "e", 2⟩]) (fun _ => none)).1).commits
    ∧ (fetchRecentCommits ⟨"demo", "/d", [], 0, 0⟩
        (Except.ok [⟨"r", "init", "a", "e", 2⟩]) (fun _ => none)).2 = true := by
  have h := root_commit_tolerated ⟨"demo", "/d", [], 0, 0⟩
    [⟨"r", "init", "a", "e", 2⟩] [] [] ⟨"r", "init", "a", "e", 2⟩ (fun _ => none)
    rfl (by simp) (by decide) (by decide) rfl (by decide)
  exact ⟨h.2.1, h.2.2⟩

theorem saveProject_cons (q : ProjectData) (r : List ProjectData) (pd : ProjectData) :
    saveProject (q :: r) pd
      = if q.name = pd.name then pd :: r else q :: saveProject r pd := by
  by_cases h : q.name = pd.name
  · simp [saveProject, List.findIdx?_cons, h]
  · have hb : (q.name == pd.name) = false := by simp [h]
    simp only [saveProject, List.findIdx?_cons, hb, if_neg h, if_false]
    cases hidx : r.findIdx? (fun pr => pr.name == pd.name) with
    | none => simp [hidx]
    | some j => simp [hidx]

theorem getProject_saveProject_self (ps : List ProjectData) (pd : ProjectData) :
    getProject (saveProject ps pd) pd.name = some pd := by
  induction ps with
  | nil => simp [saveProject, getProject, List.find?]
  | cons q r ih =>
    rw [saveProject_cons]
    by_cases h : q.name = pd.name
    · simp [h, getProject, List.find?]
    · have hb : (q.name == pd.name) = false := by simp [h]
      simp only [if_neg h]
      simpa [getProject, List.find?, hb] using ih

theorem getProject_saveProject_other (ps : List ProjectData) (pd : ProjectData)
    (m : String) (hm : m ≠ pd.name) :
    getProject (saveProject ps pd) m = getProject ps m := by
  have hpm : (pd.name == m) = false := by
    simp only [beq_eq_false_iff_ne, ne_eq]
    exact fun hh => hm hh.symm
  induction ps with
  | nil => simp [saveProject, getProject, List.find?, hpm]
  | cons q r ih =>
    rw [saveProject_cons]
    by_cases h : q.name = pd.name
    · have hqm : (q.name == m) = false := by rw [h]; exact hpm
      simp [getProject, List.find?, hqm, hpm, h]
    · simp only [if_neg h]
      by_cases hq : q.name = m
      · simp [getProject, List.find?, hq]
      · have hqm : (q.name == m) = false := by simp [hq]
        simpa [getProject, List.find?, hqm] using ih

theorem saveProject_length_existing (ps : List ProjectData) (pd : ProjectData)
    (h : ∃ q ∈ ps, q.name = pd.name) :
    (saveProject ps pd).length = ps.length := by
  induction ps with
  | nil => simp at h
  | cons q r ih =>
    rw [saveProject_cons]
    by_cases hq : q.name = pd.name
    · simp [hq]
    · rcases h with ⟨x, hx, hxn⟩
      rcases List.mem_cons.1 hx with rfl | hx'
      · exact absurd hxn hq
      · simp only [if_neg hq, List.length_cons]
        rw [ih ⟨x, hx', hxn⟩]

theorem saveProject_length_new (ps : List ProjectData) (pd : ProjectData)
    (h : ∀ q ∈ ps, q.name ≠ pd.name) :
    (saveProject ps pd).length = ps.length + 1 := by
  induction ps with
  | nil => simp [saveProject]
  | cons q r ih =>
    rw [saveProject_cons]
    have hq : q.name ≠ pd.name := h q (List.mem_cons_self q r)
    simp only [if_neg hq, List.length_cons]
    rw [ih (fun x hx => h x (List.mem_cons_of_mem q hx))]

theorem saveProject_names_sub (ps : List ProjectData) (pd : ProjectData) :
    ∀ m, m ∈ (saveProject ps pd).map (fun q => q.name) →
      m ∈ ps.map (fun q => q.name) ∨ m = pd.name := by
  induction ps with
  | nil => intro m hm; simp [saveProject] at hm; simp [hm]
  | cons q r ih =>
    intro m hm
    rw [saveProject_cons] at hm
    by_cases hq : q.name = pd.name
    · simp only [if_pos hq, List.map_cons, List.mem_cons] at hm
      rcases hm with h | h
      · exact Or.inr h
      · exact Or.inl (by simp [List.mem_cons]; exact Or.inr (List.mem_map.1 h))
    · simp only [if_neg hq, List.map_cons, List.mem_cons] at hm
      rcases hm with h | h
      · exact Or.inl (by simp [h])
      · rcases ih m h with h' | h'
        · exact Or.inl (by simp [List.mem_cons]; right; exact List.mem_map.1 h')
        · exact Or.inr h'

theorem saveProject_names_nodup (ps : List ProjectData) (pd : ProjectData)
    (hnd : (ps.map (fun q => q.name)).Nodup) :
    ((saveProject ps pd).map (fun q => q.name)).Nodup := by
  induction ps with
  | nil => simp [saveProject]
  | cons q r ih =>
    rw [saveProject_cons]
    simp only [List.map_cons, List.nodup_cons] at hnd
    by_cases hq : q.name = pd.name
    · simp only [if_pos hq, List.map_cons, List.nodup_cons]
      exact ⟨by rw [← hq]; exact hnd.1, hnd.2⟩
    · simp only [if_neg hq, List.map_cons, List.nodup_cons]
      refine ⟨?_, ih hnd.2⟩
      intro hmem
      rcases saveProject_names_sub r pd q.name hmem with h | h
      · exact hnd.1 h
      · exact hq h

/-- C9: the ledger store keeps at most one record per project name —
`saveProject` preserves name uniqueness, replaces in place (length
unchanged) when the name exists, appends one record when it is new, leaves
every other name's lookup unchanged, and makes `getProject` of the saved
name return exactly the saved record. -/
theorem store_one_record_per_name (ps : List ProjectData) (pd : ProjectData)
    (hnd : (ps.map (fun q => q.name)).Nodup) :
    ((saveProject ps pd).map (fun q => q.name)).Nodup
    ∧ ((∃ q ∈ ps, q.name = pd.name) → (saveProject ps pd).length = ps.length)
    ∧ ((∀ q ∈ ps, q.name ≠ pd.name) → (saveProject ps pd).length = ps.length + 1)
    ∧ (∀ m, m ≠ pd.name → getProject (saveProject ps pd) m = getProject ps m)
    ∧ getProject (saveProject ps pd) pd.name = some pd :=
  ⟨saveProject_names_nodup ps pd hnd,
   saveProject_length_existing ps pd,
   saveProject_length_new ps pd,
   getProject_saveProject_other ps pd,
   getProject_saveProject_self ps pd⟩

/-- Witness for C9: saving an updated record for an existing name keeps the
project count, leaves the other project's lookup intact and returns the
fresh record on lookup, and saving a new name appends. -/
theorem store_one_record_per_name_witness :
    (saveProject [⟨"alpha", "/a", [], 0, 0⟩, ⟨"beta", "/b", [], 0, 0⟩]
        ⟨"alpha", "/a2", [], 1, 1⟩).length = 2
    ∧ getProject (saveProject [⟨"alpha", "/a", [], 0, 0⟩, ⟨"beta", "/b", [], 0, 0⟩]
        ⟨"alpha", "/a2", [], 1, 1⟩) "beta" = some ⟨"beta", "/b", [], 0, 0⟩
    ∧ getProject (saveProject [⟨"alpha", "/a", [], 0, 0⟩, ⟨"beta", "/b", [], 0, 0⟩]
        ⟨"alpha", "/a2", [], 1, 1⟩) "alpha" = some ⟨"alpha", "/a2", [], 1, 1⟩
    ∧ (saveProject [⟨"alpha", "/a", [], 0, 0⟩] ⟨"gamma", "/g", [], 0, 0⟩).length = 2 := by
  have h := store_one_record_per_name
    [⟨"alpha", "/a", [], 0, 0⟩, ⟨"beta", "/b", [], 0, 0⟩]
    ⟨"alpha", "/a2", [], 1, 1⟩ (by decide)
  have h2 := store_one_record_per_name [⟨"alpha", "/a", [], 0, 0⟩]
    ⟨"gamma", "/g", [], 0, 0⟩ (by decide)
  refine ⟨h.2.1 ⟨⟨"alpha", "/a", [], 0, 0⟩, by decide, rfl⟩, ?_, h.2.2.2.2,
    h2.2.2.1 (by decide)⟩
  rw [h.2.2.2.1 "beta" (by decide)]
  decide

theorem foldl_add_eq {α : Type} (f : α → Nat) :
    ∀ (l : List α) (n : Nat), l.foldl (fun s x => s + f x) n = n + (l.map f).sum := by
  intro l
  induction l with
  | nil => simp
  | cons x xs ih =>
    intro n
    simp only [List.foldl_cons, List.map_cons, List.sum_cons]
    rw [ih (n + f x)]
    omega

theorem sum_flatMap_nat {α : Type} (f : α → List Nat) :
    ∀ l : List α, (l.flatMap f).sum = (l.map (fun x => (f x).sum)).sum := by
  intro l
  induction l with
  | nil => simp
  | cons x xs ih => simp [List.flatMap_cons, List.sum_append, ih]

/-- C6: the four summary aggregates of the report renderer equal the exact
mathematical totals over the slice — commit count, file-change-record
count, and the sums of `additions` and `deletions` over every
`FileChange` of every retained commit — and the rendered markdown report
contains the summary lines carrying exactly those numbers. -/
theorem summary_aggregation_correct (cd : List ProjectCommits) (fmt : DateFmt)
    (now s e : Nat) :
    totalCommits cd = (cd.flatMap (fun pd => pd.commits)).length
    ∧ totalFiles cd = ((cd.flatMap (fun pd => pd.commits)).flatMap (fun c => c.files)).length
    ∧ totalAdditions cd
        = (((cd.flatMap (fun pd => pd.commits)).flatMap (fun c => c.files)).map
            (fun f => f.additions)).sum
    ∧ totalDeletions cd
        = (((cd.flatMap (fun pd => pd.commits)).flatMap (fun c => c.files)).map
            (fun f => f.deletions)).sum
    ∧ ("- **Total commits:** " ++ toString (totalCommits cd))
        ∈ generateMarkdownLines fmt now cd s e
    ∧ ("- **Files modified:** " ++ toString (totalFiles cd))
        ∈ generateMarkdownLines fmt now cd s e
    ∧ ("- **Lines added:** " ++ toLocaleString (totalAdditions cd))
        ∈ generateMarkdownLines fmt now cd s e
    ∧ ("- **Lines deleted:** " ++ toLocaleString (totalDeletions cd))
        ∈ generateMarkdownLines fmt now cd s e := by
  refine ⟨?_, ?_, ?_, ?_, ?_, ?_, ?_, ?_⟩
  · rw [totalCommits, foldl_add_eq (fun pd => pd.commits.length) cd 0]
    simp [List.length_flatMap, Function.comp_def]
  · simp only [totalFiles, foldl_add_eq, List.length_flatMap, List.map_flatMap,
      sum_flatMap_nat, List.map_map]
    simp [Function.comp_def]
  · simp only [totalAdditions, foldl_add_eq, List.map_flatMap, sum_flatMap_nat]
    simp
  · simp only [totalDeletions, foldl_add_eq, List.map_flatMap, sum_flatMap_nat]
    simp
  · simp [generateMarkdownLines, summaryLinesMd]
  · simp [generateMarkdownLines, summaryLinesMd]
  · simp [generateMarkdownLines, summaryLinesMd]
  · simp [generateMarkdownLines, summaryLinesMd]

theorem lastStoredHash_take (cs : List CommitData) :
    lastStoredHash (cs.take 1000) = lastStoredHash cs := by
  cases cs with
  | nil => rfl
  | cons c cs => simp [lastStoredHash, List.take_succ_cons]

theorem fetchRecentCommits_cap_step (p q : ProjectData)
    (hcomm : p.commits = q.commits.take 1000)
    (log : Except Unit (List FetchedCommit)) (diffs : String → Option (List FileChange)) :
    ((fetchRecentCommits p log diffs).1).commits
      = (((fetchRecentCommitsNoCap q log diffs).1).commits).take 1000 := by
  cases log with
  | error u => simpa [fetchRecentCommits, fetchRecentCommitsNoCap] using hcomm
  | ok fetched =>
    have hb : lastStoredHash p.commits = lastStoredHash q.commits := by
      rw [hcomm, lastStoredHash_take]
    cases hw : walkCommits (lastStoredHash q.commits) diffs fetched with
    | nil =>
      have hwp : walkCommits (lastStoredHash p.commits) diffs fetched = [] := by
        rw [hb, hw]
      simpa [fetchRecentCommits, fetchRecentCommitsNoCap, hwp, hw] using hcomm
    | cons c cs =>
      have hwp : walkCommits (lastStoredHash p.commits) diffs fetched = c :: cs := by
        rw [hb, hw]
      have hcap : ((fetchRecentCommits p (Except.ok fetched) diffs).1).commits
          = ((c :: cs) ++ p.commits).take 1000 := by
        by_cases hlen : 1000 < cs.length + p.commits.length + 1
        · simp [fetchRecentCommits, hwp, hlen]
        · rw [List.take_of_length_le (by simp; omega)]
          simp [fetchRecentCommits, hwp, hlen]
      have hnocap : ((fetchRecentCommitsNoCap q (Except.ok fetched) diffs).1).commits
          = (c :: cs) ++ q.commits := by
        simp [fetchRecentCommitsNoCap, hw]
      rw [hcap, hnocap, hcomm]
      rw [List.take_append_eq_append_take, List.take_append_eq_append_take, List.take_take,
        min_eq_left (by omega)]

theorem syncSeq_cap (steps : List ((Except Unit (List FetchedCommit))
      × (String → Option (List FileChange)))) :
    ∀ (p q : ProjectData), p.commits = q.commits.take 1000 →
      (syncSeq p steps).commits = ((syncSeqNoCap q steps).commits).take 1000 := by
  induction steps with
  | nil => exact fun p q h => h
  | cons st rest ih =>
    intro p q h
    simp only [syncSeq, syncSeqNoCap, List.foldl_cons]
    exact ih _ _ (fetchRecentCommits_cap_step p q h st.1 st.2)

/-- C2: the synchronizer's ledger is the 1000-entry truncation of the
pre-truncation (uncapped) ledger across any sequence of sync cycles; its
length therefore never exceeds 1000 and equals exactly 1000 as soon as the
uncapped ledger would exceed 1000 entries; and within one sync, whenever
prepending the retained commits would exceed 1000 entries, the written
ledger is exactly the first 1000 entries of the prepended newest-first
sequence. -/
theorem ledger_bounded_growth (p : ProjectData)
    (steps : List ((Except Unit (List FetchedCommit))
      × (String → Option (List FileChange))))
    (fetched : List FetchedCommit) (diffs : String → Option (List FileChange))
    (h : p.commits.length ≤ 1000) :
    (syncSeq p steps).commits = ((syncSeqNoCap p steps).commits).take 1000
    ∧ (syncSeq p steps).commits.length ≤ 1000
    ∧ (1000 < (syncSeqNoCap p steps).commits.length →
        (syncSeq p steps).commits.length = 1000)
    ∧ (walkCommits (lastStoredHash p.commits) diffs fetched ≠ [] →
        1000 < (walkCommits (lastStoredHash p.commits) diffs fetched
          ++ p.commits).length →
        ((fetchRecentCommits p (Except.ok fetched) diffs).1).commits
          = (walkCommits (lastStoredHash p.commits) diffs fetched
              ++ p.commits).take 1000
        ∧ ((fetchRecentCommits p (Except.ok fetched) diffs).1).commits.length = 1000) := by
  have hself : p.commits = p.commits.take 1000 := (List.take_of_length_le h).symm
  have hmain := syncSeq_cap steps p p hself
  refine ⟨hmain, ?_, ?_, ?_⟩
  · rw [hmain, List.length_take]
    omega
  · intro hgt
    rw [hmain, List.length_take]
    omega
  · intro hne hlen
    have hpos : 0 < (walkCommits (lastStoredHash p.commits) diffs fetched).length :=
      List.length_pos.2 hne
    have heq : ((fetchRecentCommits p (Except.ok fetched) diffs).1).commits
        = (walkCommits (lastStoredHash p.commits) diffs fetched ++ p.commits).take 1000 := by
      simp only [fetchRecentCommits, hpos, if_true]
      split
      · rfl
      · next hno =>
        simp only [List.length_append] at hno hlen
        omega
    refine ⟨heq, ?_⟩
    rw [heq, List.length_take]
    omega

set_option maxRecDepth 100000 in
/-- Witness for C2: a full thousand-entry ledger receiving one fresh
commit stays at exactly 1000 entries and equals the truncated prepended
sequence. -/
theorem ledger_bounded_growth_witness :
    (syncSeq
        ⟨"demo", "/d", (List.range 1000).map (fun i => (⟨toString i, "m", "a", "e", i, []⟩ : CommitData)), 0, 0⟩
        [(Except.ok [⟨"x", "m", "a", "e", 5⟩], fun _ => none)]).commits.length = 1000
    ∧ ((fetchRecentCommits
          ⟨"demo", "/d", (List.range 1000).map (fun i => (⟨toString i, "m", "a", "e", i, []⟩ : CommitData)), 0, 0⟩
          (Except.ok [⟨"x", "m", "a", "e", 5⟩]) (fun _ => none)).1).commits
        = ((walkCommits
              (lastStoredHash ((List.range 1000).map (fun i => (⟨toString i, "m", "a", "e", i, []⟩ : CommitData))))
              (fun _ => none) [⟨"x", "m", "a", "e", 5⟩]
            ++ (List.range 1000).map (fun i => (⟨toString i, "m", "a", "e", i, []⟩ : CommitData))).take 1000) := by
  have h := ledger_bounded_growth
    ⟨"demo", "/d", (List.range 1000).map (fun i => (⟨toString i, "m", "a", "e", i, []⟩ : CommitData)), 0, 0⟩
    [(Except.ok [⟨"x", "m", "a", "e", 5⟩], fun _ => none)]
    [⟨"x", "m", "a", "e", 5⟩] (fun _ => none) (by simp)
  exact ⟨h.2.2.1 (by decide), (h.2.2.2 (by decide) (by decide)).1⟩

theorem initKeysAux_nil (fuel t e : Nat) (h : ¬ t ≤ e) : initKeysAux fuel t e = [] := by
  cases fuel with
  | zero => rfl
  | succ fuel => simp [initKeysAux, h]

theorem range_map_shift (k a : Nat) :
    (List.range (k + 1)).map (fun i => a + i)
      = a :: (List.range k).map (fun i => a + 1 + i) := by
  rw [List.range_succ_eq_map]
  simp only [List.map_cons, List.map_map, Nat.add_zero]
  refine congrArg _ ?_
  apply List.map_congr_left
  intro i _
  simp [Function.comp]
  omega

theorem initKeysAux_formula :
    ∀ (fuel t e : Nat), e + 1 - t ≤ fuel → t ≤ e →
      initKeysAux fuel t e
        = (List.range ((e - t) / minutesPerDay + 1)).map
            (fun i => t / minutesPerDay + i) := by
  intro fuel
  induction fuel with
  | zero => intro t e hf ht; omega
  | succ fuel ih =>
    intro t e hf ht
    simp only [initKeysAux, if_pos ht]
    by_cases h2 : t + minutesPerDay ≤ e
    · rw [ih (t + minutesPerDay) e (by simp [minutesPerDay] at h2 ⊢; omega) h2]
      have h4 : (t + minutesPerDay) / minutesPerDay = t / minutesPerDay + 1 :=
        Nat.add_div_right t (by simp [minutesPerDay])
      have h5 : (e - t) / minutesPerDay = (e - (t + minutesPerDay)) / minutesPerDay + 1 := by
        have h3 : e - t = (e - (t + minutesPerDay)) + minutesPerDay := by
          simp [minutesPerDay] at h2 ⊢; omega
        rw [h3, Nat.add_div_right _ (by simp [minutesPerDay])]
      rw [h4, h5]
      conv_rhs => rw [range_map_shift]
      rfl
    · have hnil : initKeysAux fuel (t + minutesPerDay) e = [] :=
        initKeysAux_nil fuel (t + minutesPerDay) e h2
      have hdiv : (e - t) / minutesPerDay = 0 :=
        Nat.div_eq_of_lt (by simp [minutesPerDay] at h2 ⊢; omega)
      rw [hnil, hdiv]
      simp [dateOf, List.range_succ]

theorem initKeys_of_le (t e : Nat) (h : t ≤ e) :
    initKeys t e
      = (List.range ((e - t) / minutesPerDay + 1)).map (fun i => t / minutesPerDay + i) :=
  initKeysAux_formula (e + 1 - t) t e le_rfl h

theorem initKeys_of_gt (t e : Nat) (h : ¬ t ≤ e) : initKeys t e = [] :=
  initKeysAux_nil _ t e h

theorem initKeys_nodup (t e : Nat) : (initKeys t e).Nodup := by
  by_cases h : t ≤ e
  · rw [initKeys_of_le t e h]
    exact (List.nodup_range _).map (fun a b => by omega)
  · rw [initKeys_of_gt t e h]
    exact List.nodup_nil

/-- The per-pair fold behind `populate`: every `(display name, commit)`
pair of the slice is folded into the table in traversal order. -/
def foldPairs (ps : List (String × CommitData)) (tb : List (Nat × DayActivity)) :
    List (Nat × DayActivity) :=
  ps.foldl (fun tb pc => bumpDay pc.1 pc.2 tb) tb

/-- The `(display name, commit)` pairs of a slice in the traversal order of
the population loop of `getDailyActivity`. -/
def pairsOf (cd : List ProjectCommits) : List (String × CommitData) :=
  cd.flatMap (fun pd => pd.commits.map (fun c => (capitalizeProjectName pd.project, c)))

theorem populate_eq_foldPairs (cd : List ProjectCommits) :
    ∀ tb, populate cd tb = foldPairs (pairsOf cd) tb := by
  induction cd with
  | nil => intro tb; rfl
  | cons pd rest ih =>
    intro tb
    simp only [populate, List.foldl_cons, pairsOf, List.flatMap_cons, foldPairs,
      List.foldl_append, List.foldl_map]
    exact ih _

theorem bumpDay_keys (pname : String) (c : CommitData) :
    ∀ tb : List (Nat × DayActivity), (bumpDay pname c tb).map Prod.fst = tb.map Prod.fst := by
  intro tb
  induction tb with
  | nil => rfl
  | cons da rest ih =>
    obtain ⟨d, a⟩ := da
    by_cases h : dateOf c.date = d
    · simp [bumpDay, h]
    · simp [bumpDay, h, ih]

theorem foldPairs_keys (ps : List (String × CommitData)) :
    ∀ tb, (foldPairs ps tb).map Prod.fst = tb.map Prod.fst := by
  induction ps with
  | nil => intro tb; rfl
  | cons pc ps ih =>
    intro tb
    simp only [foldPairs, List.foldl_cons]
    rw [show ps.foldl (fun tb pc => bumpDay pc.1 pc.2 tb) (bumpDay pc.1 pc.2 tb)
        = foldPairs ps (bumpDay pc.1 pc.2 tb) from rfl]
    rw [ih (bumpDay pc.1 pc.2 tb), bumpDay_keys]

theorem lookup_bumpDay (pname : String) (c : CommitData) (d : Nat) :
    ∀ tb : List (Nat × DayActivity),
      (bumpDay pname c tb).lookup d
        = if d = dateOf c.date then (tb.lookup d).map (updActivity pname c)
          else tb.lookup d := by
  intro tb
  induction tb with
  | nil => simp [bumpDay, List.lookup]
  | cons da rest ih =>
    obtain ⟨k, a⟩ := da
    by_cases hk : dateOf c.date = k
    · subst hk
      by_cases hd : d = dateOf c.date
      · subst hd
        simp [bumpDay, List.lookup]
      · have hbd : (d == dateOf c.date) = false := by simp [hd]
        simp [bumpDay, List.lookup, hbd, hd]
    · by_cases hd : d = k
      · subst hd
        have hne : ¬ d = dateOf c.date := fun h => hk h.symm
        simp [bumpDay, List.lookup, hk, hne]
      · have hbd : (d == k) = false := by simp [hd]
        simp [bumpDay, List.lookup, hk, hbd, ih]

theorem lookup_foldPairs (d : Nat) :
    ∀ (ps : List (String × CommitData)) (tb : List (Nat × DayActivity)),
      (foldPairs ps tb).lookup d
        = (tb.lookup d).map
            (fun a => (ps.filter (fun pc => dateOf pc.2.date == d)).foldl
              (fun a pc => updActivity pc.1 pc.2 a) a) := by
  intro ps
  induction ps with
  | nil =>
    intro tb
    simp [foldPairs]
  | cons pc ps ih =>
    intro tb
    have hstep : foldPairs (pc :: ps) tb = foldPairs ps (bumpDay pc.1 pc.2 tb) := rfl
    rw [hstep, ih (bumpDay pc.1 pc.2 tb), lookup_bumpDay]
    by_cases hd : d = dateOf pc.2.date
    · have hcond : (dateOf pc.2.date == d) = true := by simp [hd]
      simp only [if_pos hd, List.filter_cons, hcond, if_true, Option.map_map]
      rfl
    · have hcond : (dateOf pc.2.date == d) = false := by
        simp only [beq_eq_false_iff_ne, ne_eq]
        exact fun h => hd h.symm
      simp [if_neg hd, List.filter_cons, hcond]

theorem lookup_initTable (z : DayActivity) (d : Nat) :
    ∀ l : List Nat, ((l.map (fun k => (k, z))).lookup d) = if d ∈ l then some z else none := by
  intro l
  induction l with
  | nil => simp [List.lookup]
  | cons k l ih =>
    by_cases hd : d = k
    · subst hd
      simp [List.lookup]
    · have hbd : (d == k) = false := by simp [hd]
      simp [List.lookup, hbd, hd, ih]

theorem getDailyActivity_keys (cd : List ProjectCommits) (s e : Nat) :
    (getDailyActivity cd s e).map Prod.fst = initKeys s e := by
  rw [getDailyActivity, populate_eq_foldPairs, foldPairs_keys]
  simp [List.map_map, Function.comp_def]

theorem getDailyActivity_lookup (cd : List ProjectCommits) (s e d : Nat)
    (hd : d ∈ initKeys s e) :
    (getDailyActivity cd s e).lookup d
      = some (((pairsOf cd).filter (fun pc => dateOf pc.2.date == d)).foldl
          (fun a pc => updActivity pc.1 pc.2 a) ⟨0, [], 0⟩) := by
  rw [getDailyActivity, populate_eq_foldPairs, lookup_foldPairs,
    lookup_initTable ⟨0, [], 0⟩ d (initKeys s e), if_pos hd]
  rfl

theorem foldUpd_commits :
    ∀ (ps : List (String × CommitData)) (a : DayActivity),
      (ps.foldl (fun a pc => updActivity pc.1 pc.2 a) a).commits = a.commits + ps.length := by
  intro ps
  induction ps with
  | nil => intro a; simp
  | cons pc ps ih =>
    intro a
    simp only [List.foldl_cons, List.length_cons]
    rw [ih]
    simp [updActivity]
    omega

theorem foldUpd_files :
    ∀ (ps : List (String × CommitData)) (a : DayActivity),
      (ps.foldl (fun a pc => updActivity pc.1 pc.2 a) a).files
        = a.files + (ps.map (fun pc => pc.2.files.length)).sum := by
  intro ps
  induction ps with
  | nil => intro a; simp
  | cons pc ps ih =>
    intro a
    simp only [List.foldl_cons, List.map_cons, List.sum_cons]
    rw [ih]
    simp [updActivity]
    omega

theorem foldUpd_projects_mem :
    ∀ (ps : List (String × CommitData)) (a : DayActivity) (nm : String),
      nm ∈ (ps.foldl (fun a pc => updActivity pc.1 pc.2 a) a).projects
        ↔ nm ∈ a.projects ∨ nm ∈ ps.map (fun pc => pc.1) := by
  intro ps
  induction ps with
  | nil => intro a nm; simp
  | cons pc ps ih =>
    intro a nm
    simp only [List.foldl_cons, List.map_cons, List.mem_cons]
    rw [ih]
    simp only [updActivity]
    by_cases hmem : pc.1 ∈ a.projects
    · simp only [if_pos hmem]
      constructor
      · rintro (h | h)
        · exact Or.inl h
        · exact Or.inr (Or.inr h)
      · rintro (h | h | h)
        · exact Or.inl h
        · exact Or.inl (h ▸ hmem)
        · exact Or.inr h
    · simp only [if_neg hmem, List.mem_append, List.mem_singleton]
      constructor
      · rintro ((h | h) | h)
        · exact Or.inl h
        · exact Or.inr (Or.inl h)
        · exact Or.inr (Or.inr h)
      · rintro (h | h | h)
        · exact Or.inl (Or.inl h)
        · exact Or.inl (Or.inr h)
        · exact Or.inr h

theorem foldUpd_projects_nodup :
    ∀ (ps : List (String × CommitData)) (a : DayActivity), a.projects.Nodup →
      (ps.foldl (fun a pc => updActivity pc.1 pc.2 a) a).projects.Nodup := by
  intro ps
  induction ps with
  | nil => intro a h; simpa using h
  | cons pc ps ih =>
    intro a h
    simp only [List.foldl_cons]
    apply ih
    simp only [updActivity]
    by_cases hmem : pc.1 ∈ a.projects
    · simpa [if_pos hmem] using h
    · simp only [if_neg hmem]
      rw [List.nodup_append]
      refine ⟨h, List.nodup_singleton _, ?_⟩
      intro x hx hx2
      simp only [List.mem_singleton] at hx2
      exact hmem (hx2 ▸ hx)

theorem filter_pairsOf (cd : List ProjectCommits) (d : Nat) :
    (pairsOf cd).filter (fun pc => dateOf pc.2.date == d)
      = cd.flatMap (fun pd =>
          (pd.commits.filter (fun c => dateOf c.date == d)).map
            (fun c => (capitalizeProjectName pd.project, c))) := by
  induction cd with
  | nil => rfl
  | cons pd rest ih =>
    simp only [pairsOf, List.flatMap_cons, List.filter_append, List.filter_map,
      Function.comp_def] at ih ⊢
    rw [ih]

theorem getDailyActivity_lookup_none (cd : List ProjectCommits) (s e d : Nat)
    (hd : d ∉ initKeys s e) :
    (getDailyActivity cd s e).lookup d = none := by
  rw [getDailyActivity, populate_eq_foldPairs, lookup_foldPairs,
    lookup_initTable ⟨0, [], 0⟩ d (initKeys s e), if_neg hd]
  rfl

/-- C7 (amended): for `rangeStart ≤ rangeEnd`, the daily activity table
has exactly `(rangeEnd − rangeStart) / day + 1` entries, keyed by the
consecutive calendar dates starting at `rangeStart`'s calendar date (one
per iteration of the initialisation loop, which advances a full timestamp
by 24h while it is `≤ rangeEnd` — so a trailing calendar date whose
time-of-day cut-off falls before `rangeEnd`'s is not keyed); and every
tabulated date's commit count, file count and distinct project display
names reflect exactly the retained commits of the slice falling on that
calendar date. -/
theorem daily_activity_table_spec (cd : List ProjectCommits) (s e : Nat) (hse : s ≤ e) :
    (getDailyActivity cd s e).map Prod.fst
        = (List.range ((e - s) / minutesPerDay + 1)).map (fun i => dateOf s + i)
    ∧ (getDailyActivity cd s e).length = (e - s) / minutesPerDay + 1
    ∧ (∀ d a, (getDailyActivity cd s e).lookup d = some a →
        a.commits = (cd.map (fun pd =>
            (pd.commits.filter (fun c => dateOf c.date == d)).length)).sum
        ∧ a.files = (cd.map (fun pd =>
            ((pd.commits.filter (fun c => dateOf c.date == d)).map
              (fun c => c.files.length)).sum)).sum
        ∧ (∀ nm, nm ∈ a.projects ↔ ∃ pd, pd ∈ cd ∧
            (∃ c, c ∈ pd.commits ∧ dateOf c.date = d)
            ∧ nm = capitalizeProjectName pd.project)
        ∧ a.projects.Nodup) := by
  have hkeys : (getDailyActivity cd s e).map Prod.fst = initKeys s e :=
    getDailyActivity_keys cd s e
  have hinit := initKeys_of_le s e hse
  refine ⟨by rw [hkeys, hinit]; rfl, ?_, ?_⟩
  · have := congrArg List.length hkeys
    simpa [hinit] using this
  · intro d a ha
    by_cases hd : d ∈ initKeys s e
    · rw [getDailyActivity_lookup cd s e d hd] at ha
      have ha' := Option.some.inj ha
      subst ha'
      refine ⟨?_, ?_, ?_, ?_⟩
      · rw [foldUpd_commits, filter_pairsOf, List.length_flatMap]
        simp [List.map_map, Function.comp_def]
      · rw [foldUpd_files, filter_pairsOf, List.map_flatMap, sum_flatMap_nat]
        simp [List.map_map, Function.comp_def]
      · intro nm
        rw [foldUpd_projects_mem, filter_pairsOf, List.map_flatMap]
        simp only [List.mem_flatMap, List.mem_map, List.mem_filter, beq_iff_eq]
        constructor
        · rintro (h | h)
          · simp at h
          · obtain ⟨pd, hpd, x, ⟨c, ⟨hc, hcd⟩, hx⟩, hnm⟩ := h
            exact ⟨pd, hpd, ⟨c, hc, hcd⟩, by rw [← hnm, ← hx]⟩
        · rintro ⟨pd, hpd, ⟨c, hc, hcd⟩, hnm⟩
          refine Or.inr ⟨pd, hpd, (capitalizeProjectName pd.project, c),
            ⟨c, ⟨hc, hcd⟩, rfl⟩, hnm.symm⟩
      · exact foldUpd_projects_nodup _ _ (List.nodup_nil)
    · rw [getDailyActivity_lookup_none cd s e d hd] at ha
      exact absurd ha (by simp)

set_option maxRecDepth 4000 in
/-- Witness for C7 (amended) on a three-day range with two same-day
commits in one project. -/
theorem daily_activity_table_spec_witness :
    (getDailyActivity
        [⟨"demo-app", [⟨"h1", "m1", "a", "e", 1500, [⟨"f", 3, 1, 4⟩]⟩,
                       ⟨"h2", "m2", "a", "e", 1600, []⟩]⟩] 0 2880).map Prod.fst
      = [0, 1, 2]
    ∧ (⟨2, ["Demo App"], 1⟩ : DayActivity).commits
        = ([(⟨"demo-app", [⟨"h1", "m1", "a", "e", 1500, [⟨"f", 3, 1, 4⟩]⟩,
              ⟨"h2", "m2", "a", "e", 1600, []⟩]⟩ : ProjectCommits)].map (fun pd =>
            (pd.commits.filter (fun c => dateOf c.date == 1)).length)).sum
    ∧ (⟨2, ["Demo App"], 1⟩ : DayActivity).files
        = ([(⟨"demo-app", [⟨"h1", "m1", "a", "e", 1500, [⟨"f", 3, 1, 4⟩]⟩,
              ⟨"h2", "m2", "a", "e", 1600, []⟩]⟩ : ProjectCommits)].map (fun pd =>
            ((pd.commits.filter (fun c => dateOf c.date == 1)).map
              (fun c => c.files.length)).sum)).sum := by
  have h := daily_activity_table_spec
    [⟨"demo-app", [⟨"h1", "m1", "a", "e", 1500, [⟨"f", 3, 1, 4⟩]⟩,
                   ⟨"h2", "m2", "a", "e", 1600, []⟩]⟩] 0 2880 (by decide)
  have h3 := h.2.2 1 ⟨2, ["Demo App"], 1⟩ (by decide)
  refine ⟨?_, h3.1, h3.2.1⟩
  rw [h.1]
  decide

set_option maxRecDepth 4000 in
/-- Counterexample for C7 as stated: for the range `[600, 1980]` (10:00 on
day 0 to 09:00 on day 1) the table initialises only day 0 — day 1 lies in
the closed range but gets no entry, and the in-range commit at timestamp
1920 (08:00 on day 1) is counted nowhere, leaving the lone entry at zero
commits. -/
theorem daily_activity_counterexample :
    (600 : Nat) ≤ 1920 ∧ (1920 : Nat) ≤ 1980
    ∧ dateOf 600 = 0 ∧ dateOf 1920 = 1 ∧ dateOf 1980 = 1
    ∧ getDailyActivity [⟨"demo", [⟨"h1", "msg", "a", "e", 1920, []⟩]⟩] 600 1980
        = [(0, ⟨0, [], 0⟩)] := by
  decide

theorem append_ne_of_head (a b : String) (x y : Char) (ta tb : List Char)
    (ha : a.data = x :: ta) (hb : b.data = y :: tb) (hxy : x ≠ y) (s t : String) :
    a ++ s ≠ b ++ t := by
  intro h
  have h2 := congrArg String.data h
  rw [String.data_append, String.data_append, ha, hb] at h2
  exact hxy (by simpa using congrArg List.head? h2)

theorem append_ne_empty (a : String) (x : Char) (ta : List Char)
    (ha : a.data = x :: ta) (s : String) : a ++ s ≠ "" := by
  intro h
  have h2 := congrArg String.data h
  rw [String.data_append, ha] at h2
  simp at h2

theorem append_left_cancel_str (a s t : String) : a ++ s = a ++ t ↔ s = t := by
  constructor
  · intro h
    have h2 := congrArg String.data h
    rw [String.data_append, String.data_append] at h2
    exact String.ext (List.append_cancel_left h2)
  · intro h; rw [h]

theorem mem_header_dailyBreakdownMd (fmt : DateFmt) (d : Nat) :
    ∀ table : List (Nat × DayActivity),
      ("### " ++ fmt.day d) ∈ dailyBreakdownMd fmt table
        ↔ ∃ d' a, (d', a) ∈ table ∧ 0 < a.commits ∧ fmt.day d' = fmt.day d := by
  intro table
  induction table with
  | nil => simp [dailyBreakdownMd]
  | cons da rest ih =>
    obtain ⟨k, b⟩ := da
    have hsplit : dailyBreakdownMd fmt ((k, b) :: rest)
        = (if 0 < b.commits then
            ["### " ++ fmt.day k,
             "- **Commits:** " ++ toString b.commits,
             "- **Projects:** " ++ String.intercalate ", " b.projects,
             "- **Files modified:** " ++ toString b.files,
             ""]
          else []) ++ dailyBreakdownMd fmt rest := by
      simp [dailyBreakdownMd]
    rw [hsplit]
    by_cases hb : 0 < b.commits
    · simp only [if_pos hb, List.mem_append, List.mem_cons, List.not_mem_nil, or_false]
      constructor
      · rintro ((h | h | h | h | h) | h)
        · exact ⟨k, b, by simp, hb, ((append_left_cancel_str "### " _ _).1 h).symm⟩
        · exact absurd h (append_ne_of_head _ _ '#' '-' _ _ rfl rfl (by decide) _ _)
        · exact absurd h (append_ne_of_head _ _ '#' '-' _ _ rfl rfl (by decide) _ _)
        · exact absurd h (append_ne_of_head _ _ '#' '-' _ _ rfl rfl (by decide) _ _)
        · exact absurd h (append_ne_empty _ '#' _ rfl _)
        · obtain ⟨d', a, hmem, hpos, heq⟩ := ih.1 h
          exact ⟨d', a, by simp [hmem], hpos, heq⟩
      · rintro ⟨d', a, hmem, hpos, heq⟩
        rcases hmem with h | h
        · rw [Prod.mk.injEq] at h
          obtain ⟨hk, hba⟩ := h
          refine Or.inl (Or.inl ?_)
          rw [← heq, hk]
        · exact Or.inr (ih.2 ⟨d', a, h, hpos, heq⟩)
    · simp only [if_neg hb, List.nil_append]
      rw [ih]
      constructor
      · rintro ⟨d', a, hmem, hpos, heq⟩
        exact ⟨d', a, by simp [hmem], hpos, heq⟩
      · rintro ⟨d', a, hmem, hpos, heq⟩
        rcases List.mem_cons.1 hmem with h | h
        · rw [Prod.mk.injEq] at h
          obtain ⟨hk, hba⟩ := h
          subst hba
          exact absurd hpos (by simp [hb])
        · exact ⟨d', a, h, hpos, heq⟩

theorem mem_header_dailyBreakdownTxt (fmt : DateFmt) (d : Nat) :
    ∀ table : List (Nat × DayActivity),
      ("🗓️  " ++ fmt.day d) ∈ dailyBreakdownTxt fmt table
        ↔ ∃ d' a, (d', a) ∈ table ∧ 0 < a.commits ∧ fmt.day d' = fmt.day d := by
  intro table
  induction table with
  | nil => simp [dailyBreakdownTxt]
  | cons da rest ih =>
    obtain ⟨k, b⟩ := da
    have hsplit : dailyBreakdownTxt fmt ((k, b) :: rest)
        = (if 0 < b.commits then
            ["🗓️  " ++ fmt.day k,
             "   • Commits: " ++ toString b.commits,
             "   • Projects: " ++ String.intercalate ", " b.projects,
             "   • Files modified: " ++ toString b.files,
             ""]
          else []) ++ dailyBreakdownTxt fmt rest := by
      simp [dailyBreakdownTxt]
    rw [hsplit]
    by_cases hb : 0 < b.commits
    · simp only [if_pos hb, List.mem_append, List.mem_cons, List.not_mem_nil, or_false]
      constructor
      · rintro ((h | h | h | h | h) | h)
        · exact ⟨k, b, by simp, hb, ((append_left_cancel_str "🗓️  " _ _).1 h).symm⟩
        · exact absurd h (append_ne_of_head _ _ '🗓' ' ' _ _ rfl rfl (by decide) _ _)
        · exact absurd h (append_ne_of_head _ _ '🗓' ' ' _ _ rfl rfl (by decide) _ _)
        · exact absurd h (append_ne_of_head _ _ '🗓' ' ' _ _ rfl rfl (by decide) _ _)
        · exact absurd h (append_ne_empty _ '🗓' _ rfl _)
        · obtain ⟨d', a, hmem, hpos, heq⟩ := ih.1 h
          exact ⟨d', a, by simp [hmem], hpos, heq⟩
      · rintro ⟨d', a, hmem, hpos, heq⟩
        rcases hmem with h | h
        · rw [Prod.mk.injEq] at h
          obtain ⟨hk, hba⟩ := h
          refine Or.inl (Or.inl ?_)
          rw [← heq, hk]
        · exact Or.inr (ih.2 ⟨d', a, h, hpos, heq⟩)
    · simp only [if_neg hb, List.nil_append]
      rw [ih]
      constructor
      · rintro ⟨d', a, hmem, hpos, heq⟩
        exact ⟨d', a, by simp [hmem], hpos, heq⟩
      · rintro ⟨d', a, hmem, hpos, heq⟩
        rcases List.mem_cons.1 hmem with h | h
        · rw [Prod.mk.injEq] at h
          obtain ⟨hk, hba⟩ := h
          subst hba
          exact absurd hpos (by simp [hb])
        · exact ⟨d', a, h, hpos, heq⟩

theorem table_snd_unique {tb : List (Nat × DayActivity)}
    (hnd : (tb.map Prod.fst).Nodup) :
    ∀ {d : Nat} {a a' : DayActivity}, (d, a) ∈ tb → (d, a') ∈ tb → a = a' := by
  induction tb with
  | nil => intro d a a' h; simp at h
  | cons kb rest ih =>
    obtain ⟨k, b⟩ := kb
    intro d a a' h1 h2
    simp only [List.map_cons, List.nodup_cons] at hnd
    rcases List.mem_cons.1 h1 with e1 | m1
    · rw [Prod.mk.injEq] at e1
      obtain ⟨hk1, hb1⟩ := e1
      rcases List.mem_cons.1 h2 with e2 | m2
      · rw [Prod.mk.injEq] at e2
        rw [hb1, e2.2]
      · exfalso
        apply hnd.1
        rw [← hk1]
        exact List.mem_map.2 ⟨(d, a'), m2, rfl⟩
    · rcases List.mem_cons.1 h2 with e2 | m2
      · rw [Prod.mk.injEq] at e2
        obtain ⟨hk2, hb2⟩ := e2
        exfalso
        apply hnd.1
        rw [← hk2]
        exact List.mem_map.2 ⟨(d, a), m1, rfl⟩
      · exact ih hnd.2 m1 m2

/-- C10: although the daily activity table holds an entry for every
initialised date, the rendered Daily Breakdown sections (markdown and
plain text) emit a date heading exactly for the tabulated dates with a
positive commit count — zero-commit dates are omitted — and those sections
appear verbatim inside the full rendered line lists. -/
theorem daily_breakdown_renders_only_active (fmt : DateFmt) (cd : List ProjectCommits)
    (s e now : Nat) (hinj : ∀ d₁ d₂, fmt.day d₁ = fmt.day d₂ → d₁ = d₂) :
    (∀ d a, (d, a) ∈ getDailyActivity cd s e → a.commits = 0 →
        ("### " ++ fmt.day d) ∉ dailyBreakdownMd fmt (getDailyActivity cd s e)
        ∧ ("🗓️  " ++ fmt.day d) ∉ dailyBreakdownTxt fmt (getDailyActivity cd s e))
    ∧ (∀ d a, (d, a) ∈ getDailyActivity cd s e → 0 < a.commits →
        ("### " ++ fmt.day d) ∈ dailyBreakdownMd fmt (getDailyActivity cd s e)
        ∧ ("🗓️  " ++ fmt.day d) ∈ dailyBreakdownTxt fmt (getDailyActivity cd s e))
    ∧ (∃ u v, generateMarkdownLines fmt now cd s e
        = u ++ (dailyBreakdownMd fmt (getDailyActivity cd s e) ++ v))
    ∧ (0 < cd.length → ∃ u v, generatePlainTextLines fmt now cd s e
        = u ++ (dailyBreakdownTxt fmt (getDailyActivity cd s e) ++ v)) := by
  have hnd : ((getDailyActivity cd s e).map Prod.fst).Nodup := by
    rw [getDailyActivity_keys]
    exact initKeys_nodup s e
  refine ⟨?_, ?_, ?_, ?_⟩
  · intro d a hmem h0
    constructor
    · intro habs
      obtain ⟨d', a', hmem', hpos, heq⟩ :=
        (mem_header_dailyBreakdownMd fmt d (getDailyActivity cd s e)).1 habs
      have hd := hinj d' d heq
      subst hd
      have := table_snd_unique hnd hmem' hmem
      subst this
      omega
    · intro habs
      obtain ⟨d', a', hmem', hpos, heq⟩ :=
        (mem_header_dailyBreakdownTxt fmt d (getDailyActivity cd s e)).1 habs
      have hd := hinj d' d heq
      subst hd
      have := table_snd_unique hnd hmem' hmem
      subst this
      omega
  · intro d a hmem hpos
    exact ⟨(mem_header_dailyBreakdownMd fmt d (getDailyActivity cd s e)).2
        ⟨d, a, hmem, hpos, rfl⟩,
      (mem_header_dailyBreakdownTxt fmt d (getDailyActivity cd s e)).2
        ⟨d, a, hmem, hpos, rfl⟩⟩
  · refine ⟨["# Work Report",
      "**Period:** " ++ fmt.day (dateOf s) ++ " to " ++ fmt.day (dateOf e),
      "**Generated:** " ++ fmt.dateTime now, ""] ++
      summaryLinesMd cd ++
      ["## Project Details", ""] ++
      cd.flatMap (projectDetailLinesMd fmt) ++
      ["## Daily Breakdown", ""],
      ["", "---", "",
       "*Generated by [Project Report Compiler](https://github.com/blessingmwiti/project-report-compiler)*"],
      ?_⟩
    simp [generateMarkdownLines, List.append_assoc]
  · intro hlen
    have hne : ¬ cd.length = 0 := by omega
    refine ⟨[repeatChar '═' 60,
      repeatChar ' ' ((60 - "WORK REPORT".length) / 2) ++ "WORK REPORT",
      repeatChar '═' 60, "",
      "📅 PERIOD: " ++ fmt.day (dateOf s) ++ " to " ++ fmt.day (dateOf e),
      "🕒 GENERATED: " ++ fmt.dateTime now, ""] ++
      ["📊 SUMMARY", repeatChar '─' 20,
       "• Projects worked on: " ++ toString (totalProjects cd),
       "• Total commits: " ++ toString (totalCommits cd),
       "• Files modified: " ++ toString (totalFiles cd),
       "• Lines added: " ++ toLocaleString (totalAdditions cd),
       "• Lines deleted: " ++ toLocaleString (totalDeletions cd), ""] ++
      ["📁 PROJECT DETAILS", repeatChar '─' 30, ""] ++
      cd.flatMap (projectDetailLinesTxt fmt) ++
      ["📅 DAILY BREAKDOWN", repeatChar '─' 25, ""],
      [repeatChar '─' 60, "",
       "🔗 Generated by Project Report Compiler",
       "   https://github.com/blessingmwiti/project-report-compiler"],
      ?_⟩
    simp [generatePlainTextLines, hne, List.append_assoc]

set_option maxRecDepth 4000 in
/-- Witness for C10 on a two-day range whose second day has zero commits:
its heading is absent from the markdown Daily Breakdown while the active
day's heading is present. -/
theorem daily_breakdown_renders_only_active_witness :
    ("### " ++ String.mk (List.replicate 1 'x'))
        ∉ dailyBreakdownMd ⟨fun d => String.mk (List.replicate d 'x'), fun _ => "", fun _ => ""⟩
            (getDailyActivity [⟨"demo", [⟨"h1", "m", "a", "e", 0, []⟩]⟩] 0 1500)
    ∧ ("### " ++ String.mk (List.replicate 0 'x'))
        ∈ dailyBreakdownMd ⟨fun d => String.mk (List.replicate d 'x'), fun _ => "", fun _ => ""⟩
            (getDailyActivity [⟨"demo", [⟨"h1", "m", "a", "e", 0, []⟩]⟩] 0 1500) := by
  have hinj : ∀ d₁ d₂,
      (String.mk (List.replicate d₁ 'x')) = (String.mk (List.replicate d₂ 'x')) → d₁ = d₂ := by
    intro d₁ d₂ h
    have h2 := congrArg (fun s : String => s.data.length) h
    simpa using h2
  have h := daily_breakdown_renders_only_active
    ⟨fun d => String.mk (List.replicate d 'x'), fun _ => "", fun _ => ""⟩
    [⟨"demo", [⟨"h1", "m", "a", "e", 0, []⟩]⟩] 0 1500 99 hinj
  exact ⟨(h.1 1 ⟨0, [], 0⟩ (by decide) rfl).1,
    (h.2.1 0 ⟨1, ["Demo"], 0⟩ (by decide) (by decide)).1⟩

/-- C8 (amended): `generateReport` never rejects a request — every format
selector yields a successfully rendered document — and any selector other
than the recognized `"html"` and `"txt"` encodings is silently coerced to
the default markdown rendering rather than surfacing an error. -/
theorem unrecognized_format_coerced (fmt : DateFmt) (now : Nat) (format : String)
    (projects : List ProjectData) (s e : Nat)
    (h1 : format ≠ "html") (h2 : format ≠ "txt") :
    (∀ f' : String, ∃ doc, generateReport fmt now f' projects s e = Except.ok doc)
    ∧ ((getCommitsInDateRange projects s e).length ≠ 0 →
        generateReport fmt now format projects s e
          = Except.ok (generateMarkdownReport fmt now
              (getCommitsInDateRange projects s e) s e)) := by
  constructor
  · intro f'
    rcases hgen : generateReport fmt now f' projects s e with msg | doc
    · exfalso
      by_cases hcd : (getCommitsInDateRange projects s e).length = 0
      · simp [generateReport, hcd] at hgen
      · simp only [generateReport, if_neg hcd] at hgen
        split at hgen <;> simp at hgen
    · exact ⟨doc, rfl⟩
  · intro hne
    simp only [generateReport, if_neg hne]

/-- Counterexample for C8 as stated: the unrecognized format selector
`"bogus"` is not rejected — the report is rendered successfully, and the
output is exactly the default markdown rendering. -/
theorem unrecognized_format_counterexample :
    ("bogus" : String) ≠ "html" ∧ ("bogus" : String) ≠ "txt"
    ∧ ("bogus" : String) ≠ "markdown"
    ∧ generateReport
        ⟨fun d => "D" ++ toString d, fun t => "T" ++ toString t, fun t => "t" ++ toString t⟩
        99 "bogus"
        [⟨"demo", "/d", [⟨"h1", "feat: add x", "a", "e", 100, [⟨"f.ts", 2, 1, 3⟩]⟩], 0, 0⟩]
        0 1500
      = Except.ok (generateMarkdownReport
          ⟨fun d => "D" ++ toString d, fun t => "T" ++ toString t, fun t => "t" ++ toString t⟩
          99
          (getCommitsInDateRange
            [⟨"demo", "/d", [⟨"h1", "feat: add x", "a", "e", 100, [⟨"f.ts", 2, 1, 3⟩]⟩], 0, 0⟩]
            0 1500)
          0 1500) := by
  refine ⟨by decide, by decide, by decide, ?_⟩
  rfl

/-- Witness for C8 (amended): the unrecognized selector `"plain"` still
yields a successfully rendered document. -/
theorem unrecognized_format_coerced_witness :
    ∃ doc, generateReport ⟨fun _ => "", fun _ => "", fun _ => ""⟩ 0 "plain" [] 0 0
      = Except.ok doc :=
  (unrecognized_format_coerced ⟨fun _ => "", fun _ => "", fun _ => ""⟩ 0 "plain" [] 0 0
    (by decide) (by decide)).1 "plain"
